import Mathlib

/-!
Verification of the RCPSP scheduling engine in `main.py`: the precedence
index, the critical-path calculator, the activity-order sampler, the
resource time-profile and the serial schedule decoder.

Modelling conventions:
* Python object references to `TimeCapacityNode` become stable indices into
  an arena list; `next`/`prev` fields hold indices.  Inserting a node
  appends it to the arena, so existing references are never invalidated,
  exactly like Python references.
* Python `int` resource amounts become `ℤ` (consumption can drive a
  breakpoint's capacity negative); times and durations are the
  non-negative `ℕ`.
* A Python `while` loop whose progress follows heap pointers is given
  explicit fuel; exhausted fuel yields `DecodeErr.fuel`, and a `None`
  dereference (Python `AttributeError`) yields `DecodeErr.attr`.
  Theorems below show that with the fuel the decoder passes, `fuel` is
  never the blocking error on chain-shaped arenas.
-/

/-- `successors_by_predecessors` from the source:
`j ∈ successors[i] ↔ i ∈ predecessors[j]`, both lists indexed over `range n`. -/
def successors_by_predecessors (predecessors : List (List ℕ)) : List (List ℕ) :=
  let n := predecessors.length
  (List.range n).map fun i => (List.range n).filter fun j => i ∈ predecessors.getD j []

/-- A breakpoint of the resource time-profile (Python class `TimeCapacityNode`).
`next`/`prev` are arena indices standing for the Python object references. -/
structure TimeCapacityNode where
  time : ℕ
  capacity : List ℤ
  next : Option ℕ
  prev : Option ℕ
deriving DecidableEq, Repr, Inhabited

abbrev Arena := List TimeCapacityNode

/-- `TimeCapacityNode.enough`: `all(self.capacity[i] >= demand[i] for i in range(len(demand)))`. -/
def TimeCapacityNode.enough (nd : TimeCapacityNode) (demand : List ℤ) : Bool :=
  (List.range demand.length).all fun i => decide (demand.getD i 0 ≤ nd.capacity.getD i 0)

/-- `TimeCapacityNode.consume`: `capacity[i] -= demand[i]` for `i in range(len(demand))`
(the decoder only ever calls it with `len demand = len capacity`). -/
def consumeCap : List ℤ → List ℤ → List ℤ
  | cs, [] => cs
  | [], _ :: _ => []
  | c :: cs, d :: ds => (c - d) :: consumeCap cs ds

/-- `TimeCapacityNode.insert_after`: allocate a node at `time` copying `self`'s
current capacity vector and splice it directly after `self`; returns the new
node's arena index together with the updated arena. -/
def TimeCapacityNode.insert_after (arena : Arena) (self : ℕ) (time : ℕ) : ℕ × Arena :=
  let s := arena.getD self default
  let newIdx := arena.length
  let node : TimeCapacityNode := ⟨time, s.capacity, s.next, some self⟩
  let a₁ := arena ++ [node]
  let a₂ := match s.next with
    | some nx => a₁.set nx { a₁.getD nx default with prev := some newIdx }
    | none => a₁
  (newIdx, a₂.set self { a₂.getD self default with next := some newIdx })

inductive DecodeErr where
  /-- a `None` dereference (Python raises `AttributeError`) -/
  | attr
  /-- fuel exhausted: only possible if the `next`-pointers do not form a chain -/
  | fuel
deriving DecidableEq, Repr

structure DecodeState where
  arena : Arena
  starts : List ℕ
  finishNodes : List (Option ℕ)
deriving DecidableEq, Repr

/-- The predecessor scan of `ActivityListDecoder.decode`:
`start = root; for p in ps: if finish_nodes[p].time > start.time: start = finish_nodes[p]`. -/
def maxPredStart (arena : Arena) (finishNodes : List (Option ℕ)) :
    List ℕ → ℕ → Except DecodeErr ℕ
  | [], s => .ok s
  | p :: ps, s =>
    match finishNodes.getD p none with
    | none => .error .attr
    | some f =>
      maxPredStart arena finishNodes ps
        (if (arena.getD s default).time < (arena.getD f default).time then f else s)

/-- The capacity search of `decode`:
`while not node.enough(demand): node = node.next` (fuel-bounded walk). -/
def walkEnough (arena : Arena) (demand : List ℤ) : ℕ → ℕ → Except DecodeErr ℕ
  | 0, _ => .error .fuel
  | fuel + 1, idx =>
    if (arena.getD idx default).enough demand then .ok idx
    else
      match (arena.getD idx default).next with
      | none => .error .attr
      | some nx => walkEnough arena demand fuel nx

/-- The consumption loop of `decode`:
`t = start; while t != finish_node: t.consume(demand); t = t.next`. -/
def consumeWalk (demand : List ℤ) (finishIdx : ℕ) : ℕ → ℕ → Arena → Except DecodeErr Arena
  | 0, _, _ => .error .fuel
  | fuel + 1, t, arena =>
    if t = finishIdx then .ok arena
    else
      let nd := arena.getD t default
      let arena' := arena.set t { nd with capacity := consumeCap nd.capacity demand }
      match nd.next with
      | none => .error .attr
      | some nx => consumeWalk demand finishIdx fuel nx arena'

/-- One iteration of the `for i in alist` loop of `ActivityListDecoder.decode`.
After the capacity search, `start` and `node` coincide, so `start.time` is the
found node's time and the recorded finish node is that node's `next`. -/
def decodeStep (duration : List ℕ) (predecessors : List (List ℕ)) (demands : List (List ℤ))
    (st : DecodeState) (i : ℕ) : Except DecodeErr DecodeState := do
  let start₀ ← maxPredStart st.arena st.finishNodes (predecessors.getD i []) 0
  let node ← walkEnough st.arena (demands.getD i []) (st.arena.length + 1) start₀
  let finishTime := (st.arena.getD node default).time + duration.getD i 0
  let (finishIdx, arena₁) :=
    match (st.arena.getD node default).next with
    | none => TimeCapacityNode.insert_after st.arena node finishTime
    | some nx =>
      if (st.arena.getD nx default).time ≠ finishTime
      then TimeCapacityNode.insert_after st.arena node finishTime
      else (nx, st.arena)
  let arena₂ ← consumeWalk (demands.getD i []) finishIdx (arena₁.length + 1) node arena₁
  .ok { arena := arena₂,
        starts := st.starts.set i (arena₂.getD node default).time,
        finishNodes := st.finishNodes.set i (some finishIdx) }

/-- `ActivityListDecoder.decode`, with the full final state exposed. -/
def decodeRun (alist : List ℕ) (duration : List ℕ) (predecessors : List (List ℕ))
    (demands : List (List ℤ)) (capacity : List ℤ) : Except DecodeErr DecodeState :=
  let n := duration.length
  let st₀ : DecodeState :=
    { arena := [⟨0, capacity, none, none⟩],
      starts := List.replicate n 0,
      finishNodes := (List.replicate n (none : Option ℕ)).set 0 (some 0) }
  alist.foldlM (decodeStep duration predecessors demands) st₀

/-- `ActivityListDecoder.decode`: the returned start-time vector. -/
def ActivityListDecoder.decode (alist : List ℕ) (duration : List ℕ)
    (predecessors : List (List ℕ)) (demands : List (List ℤ)) (capacity : List ℤ) :
    Except DecodeErr (List ℕ) :=
  (decodeRun alist duration predecessors demands capacity).map (·.starts)

/-- The times along the `next`-chain of the arena, starting at `idx`. -/
def chainTimes (arena : Arena) : ℕ → ℕ → List ℕ
  | 0, _ => []
  | fuel + 1, idx =>
    (arena.getD idx default).time ::
      (match (arena.getD idx default).next with
       | none => []
       | some nx => chainTimes arena fuel nx)

/-- Modelled from the spec's testable property (re-simulating the schedule
independently of the profile): the total demand for resource `r` at time
instant `t`, summed over the activities active at `t`. -/
def usageAt (starts duration : List ℕ) (demands : List (List ℤ)) (t r : ℕ) : ℤ :=
  ((List.range starts.length).filter fun i =>
      decide (starts.getD i 0 ≤ t) && decide (t < starts.getD i 0 + duration.getD i 0)).foldl
    (fun acc i => acc + (demands.getD i []).getD r 0) 0

/-- Python `max` over a non-empty list (callers guard non-emptiness; `[]` is junk). -/
def listMaxInt : List ℤ → ℤ
  | [] => 0
  | x :: xs => xs.foldl max x

/-- Python `min` over a non-empty list (callers guard non-emptiness; `[]` is junk). -/
def listMinInt : List ℤ → ℤ
  | [] => 0
  | x :: xs => xs.foldl min x

/-- The generator `(step p est, for p in ps)` threading the shared array through the
nested recursive calls; `post p v` is the contribution of predecessor/successor `p`
whose recursive value is `v` (`v + duration[p]` for `calc_es`, `v - duration[s]`
for `calc_lf`). -/
def calcVals (step : ℕ → List ℤ → ℤ × List ℤ) (post : ℕ → ℤ → ℤ) :
    List ℕ → List ℤ → List ℤ × List ℤ
  | [], est => ([], est)
  | p :: ps, est =>
    let r := step p est
    let rs := calcVals step post ps r.2
    (post p r.1 :: rs.1, rs.2)

/-- `calc_es` of `calculate_critical_times`, with the shared `est` array threaded
explicitly and the recursion depth bounded by `fuel` (the Python recursion
terminates only on acyclic inputs; `fuel = n` then suffices, see below).
`calc_es(i)` sets `est[i] = max(calc_es(p) + duration[p] for p in predecessors[i])`
when `i` has predecessors and returns `est[i]`. -/
def calcEsRun (duration : List ℕ) (predecessors : List (List ℕ)) :
    ℕ → ℕ → List ℤ → ℤ × List ℤ
  | 0, i, est => (est.getD i 0, est)
  | fuel + 1, i, est =>
    match predecessors.getD i [] with
    | [] => (est.getD i 0, est)
    | p :: ps =>
      let r := calcVals (calcEsRun duration predecessors fuel)
        (fun q v => v + (duration.getD q 0 : ℤ)) (p :: ps) est
      let est' := r.2.set i (listMaxInt r.1)
      (est'.getD i 0, est')

/-- `calc_lf` of `calculate_critical_times`: `lst[i] = est[i]` at the sink index,
else `lst[i] = min(calc_lf(s) - duration[s] for s in successors[i])` when `i` has
successors (otherwise `lst[i]` is left untouched); returns `lst[i]`. -/
def calcLfRun (duration : List ℕ) (successors : List (List ℕ)) (est : List ℤ) :
    ℕ → ℕ → List ℤ → ℤ × List ℤ
  | 0, i, lst => (lst.getD i 0, lst)
  | fuel + 1, i, lst =>
    if i = duration.length - 1 then
      let lst' := lst.set i (est.getD i 0)
      (lst'.getD i 0, lst')
    else
      match successors.getD i [] with
      | [] => (lst.getD i 0, lst)
      | s :: ss =>
        let r := calcVals (calcLfRun duration successors est fuel)
          (fun q v => v - (duration.getD q 0 : ℤ)) (s :: ss) lst
        let lst' := r.2.set i (listMinInt r.1)
        (lst'.getD i 0, lst')

/-- `calculate_critical_times(duration, predecessors, successors=None)`.
Python's `if not successors:` treats both the default `None` and `[]` as absent,
modelled by the `isEmpty` test.  `fuel` bounds the recursion depth of the two
memo-free recursive passes (the source recursion terminates only on acyclic
networks). -/
def calculate_critical_times (fuel : ℕ) (duration : List ℕ)
    (predecessors : List (List ℕ)) (successors : List (List ℕ)) : List ℤ × List ℤ :=
  let succ := if successors.isEmpty then successors_by_predecessors predecessors
              else successors
  let n := duration.length
  let est := (calcEsRun duration predecessors fuel (n - 1) (List.replicate n 0)).2
  let lst := (calcLfRun duration succ est fuel 0 (List.replicate n 0)).2
  (est, lst)

/-- Python `min(xs, key=rule)`: the first element of `xs` attaining the minimum
key (the running best is replaced only on a strictly smaller key).  On `[]`
Python raises `ValueError`; `_gen` only applies it to a non-empty ready list. -/
def pyMinKey (rule : ℕ → ℤ) : List ℕ → ℕ
  | [] => 0
  | x :: xs => xs.foldl (fun b y => if rule y < rule b then y else b) x

/-- The inner loop of `ActivityListSampler._gen`:
`for s in succ[i]: rem[s].remove(i); if not rem[s]: ready.append(s)`.
`Finset.erase` models `set.remove`; they agree whenever the element is present,
which holds on every run covered by the theorems below. -/
def genUpdate (i : ℕ) : List ℕ → List (Finset ℕ) → List ℕ → List (Finset ℕ) × List ℕ
  | [], rem, ready => (rem, ready)
  | s :: ss, rem, ready =>
    let rem' := rem.set s ((rem.getD s ∅).erase i)
    if rem'.getD s ∅ = ∅ then genUpdate i ss rem' (ready ++ [s])
    else genUpdate i ss rem' ready

/-- The `while ready:` loop of `ActivityListSampler._gen`, fuel-bounded.
Under the well-formedness hypotheses of the theorems below the ready list is
empty after exactly `n` picks, so the fuel `n + 1` passed by `gen` is never
what stops the loop. -/
def genLoop (succ : List (List ℕ)) (pick : List ℕ → ℕ) :
    ℕ → List (Finset ℕ) → List ℕ → List ℕ → List ℕ
  | 0, _, _, res => res
  | fuel + 1, rem, ready, res =>
    match ready with
    | [] => res
    | _ :: _ =>
      let i := pick ready
      let rr := genUpdate i (succ.getD i []) rem (ready.erase i)
      genLoop succ pick fuel rr.1 rr.2 (res ++ [i])

/-- `ActivityListSampler._gen`, parametrised by the selection policy `pick`
(`random.choice` for `random`, `min(·, key=rule)` for `min_rule`).
`rem = [set(p) for p in predecessors]`; `ready = [i for i in range(n) if not rem[i]]`. -/
def ActivityListSampler.gen (predecessors : List (List ℕ)) (pick : List ℕ → ℕ) : List ℕ :=
  let n := predecessors.length
  let succ := successors_by_predecessors predecessors
  let rem := predecessors.map (fun p => p.toFinset)
  let ready := (List.range n).filter fun i => decide (rem.getD i ∅ = ∅)
  genLoop succ pick (n + 1) rem ready []

/-- `ActivityListSampler.min_rule`. -/
def ActivityListSampler.min_rule (predecessors : List (List ℕ)) (rule : ℕ → ℤ) : List ℕ :=
  ActivityListSampler.gen predecessors (pyMinKey rule)

/-- `ActivityListSampler.random`, with the global pseudo-random source abstracted
into the `choice` argument (any function selecting a member of the ready list). -/
def ActivityListSampler.randomWith (predecessors : List (List ℕ))
    (choice : List ℕ → ℕ) : List ℕ :=
  ActivityListSampler.gen predecessors choice

/-- A sample priority key (identity), used by concrete witnesses below. -/
def idKey (i : ℕ) : ℤ := (i : ℤ)

/-- The `next`-pointers starting at arena index `i` traverse exactly the index
list `i :: rest` and end at a node whose `next` is `none`. -/
inductive ChainFrom (arena : Arena) : ℕ → List ℕ → Prop
  | last (i : ℕ) (h : (arena.getD i default).next = none) : ChainFrom arena i [i]
  | cons (i j : ℕ) (rest : List ℕ) (h : (arena.getD i default).next = some j)
      (hc : ChainFrom arena j rest) : ChainFrom arena i (i :: rest)

/-- Decoder arena well-formedness: the `next`-chain from the root index `0`
enumerates every arena index exactly once and the chain's final breakpoint
still carries the full original `capacity` vector. -/
structure ArenaInv (capacity : List ℤ) (arena : Arena) (L : List ℕ) : Prop where
  chain : ChainFrom arena 0 L
  nodup : L.Nodup
  len : L.length = arena.length
  memLt : ∀ j ∈ L, j < arena.length
  lastFull : (arena.getD (L.getLastD 0) default).capacity = capacity

/-- Weak pointer validity of a decoder state: the arena is non-empty, every
`next` pointer and every recorded finish node is a valid arena index, and the
bookkeeping lists have their initial length `n`. -/
structure WfPointers (n : ℕ) (st : DecodeState) : Prop where
  ne : st.arena ≠ []
  next_lt : ∀ j < st.arena.length, ∀ k,
    (st.arena.getD j default).next = some k → k < st.arena.length
  finValid : ∀ p f, st.finishNodes.getD p none = some f → f < st.arena.length
  startsLen : st.starts.length = n
  finLen : st.finishNodes.length = n

/-- Full decoder loop invariant: weak pointer validity plus a chain-shaped
arena whose last breakpoint keeps the original capacity. -/
structure DecodeInv (n : ℕ) (capacity : List ℤ) (st : DecodeState) : Prop where
  wf : WfPointers n st
  arenaInv : ∃ L, ArenaInv capacity st.arena L

/-- Invariant of the `while ready:` loop of `ActivityListSampler._gen` (Kahn's
algorithm over the implicit precedence graph): `res` is the emitted prefix,
`ready` the current ready list, `rem.getD j` the set of still-unemitted
predecessors of `j`. -/
structure GenInv (n : ℕ) (predecessors : List (List ℕ)) (rem : List (Finset ℕ))
    (ready res : List ℕ) : Prop where
  remLen : rem.length = n
  resNodup : res.Nodup
  resLt : ∀ x ∈ res, x < n
  readyNodup : ready.Nodup
  readyLt : ∀ x ∈ ready, x < n
  remEq : ∀ j < n, rem.getD j ∅ = (predecessors.getD j []).toFinset \ res.toFinset
  readyIff : ∀ j < n,
    (j ∈ ready ↔ j ∉ res ∧ ∀ p ∈ predecessors.getD j [], p ∈ res)
  topo : ∀ k < res.length,
    ∀ p ∈ predecessors.getD (res.getD k 0) [], p ∈ res.take k

/-- `out` is a topological order of the implicit precedence graph: every
position's activity has all its predecessors strictly earlier in `out`. -/
def TopoList (predecessors : List (List ℕ)) (out : List ℕ) : Prop :=
  ∀ k < out.length, ∀ p ∈ predecessors.getD (out.getD k 0) [], p ∈ out.take k

/-- The canonical earliest-start values: the unique solution of the forward
recurrence on an acyclic network, written with an explicit recursion bound. -/
def esVal (duration : List ℕ) (predecessors : List (List ℕ)) : ℕ → ℕ → ℤ
  | 0, _ => 0
  | fuel + 1, i =>
    match predecessors.getD i [] with
    | [] => 0
    | p :: ps => listMaxInt ((p :: ps).map
        (fun q => esVal duration predecessors fuel q + (duration.getD q 0 : ℤ)))

/-- The canonical latest-finish values of the backward pass (`lst` in the
source): `est` at the sink, else the minimum of `lfVal s - duration s` over the
successors. -/
def lfVal (duration : List ℕ) (successors : List (List ℕ)) (est : List ℤ) :
    ℕ → ℕ → ℤ
  | 0, _ => 0
  | fuel + 1, i =>
    if i = duration.length - 1 then est.getD i 0
    else
      match successors.getD i [] with
      | [] => 0
      | s :: ss => listMinInt ((s :: ss).map
          (fun q => lfVal duration successors est fuel q - (duration.getD q 0 : ℤ)))

/-- `Visits adj i j`: the memo-free recursion rooted at `i`, recursing into
`adj.getD k []` at each node `k`, reaches node `j`. -/
inductive Visits (adj : List (List ℕ)) : ℕ → ℕ → Prop
  | refl (i : ℕ) : Visits adj i i
  | step (i p j : ℕ) (hp : p ∈ adj.getD i []) (h : Visits adj p j) : Visits adj i j

/-- The Python heap of `list[int]` objects, for the aliasing analysis of
`decode`: indices are object identities.  A copy (`capacity[:]`,
`self.capacity[:]`) appends a fresh object; `consume`'s in-place update writes
through a node's reference. -/
abbrev Store := List (List ℤ)

/-- A breakpoint whose `capacity` field is a reference into the store,
mirroring the Python object graph exactly. -/
structure HNode where
  time : ℕ
  capRef : ℕ
  next : Option ℕ
  prev : Option ℕ
deriving DecidableEq, Repr, Inhabited

/-- Decoder state of the heap model: the node arena, the object store, and the
bookkeeping vectors of `decode`. -/
structure HDecodeState where
  arena : List HNode
  store : Store
  starts : List ℕ
  finishNodes : List (Option ℕ)
deriving DecidableEq, Repr

/-- `TimeCapacityNode.enough` against the store (a pure read). -/
def HNode.enough (store : Store) (nd : HNode) (demand : List ℤ) : Bool :=
  (List.range demand.length).all fun i =>
    decide (demand.getD i 0 ≤ (store.getD nd.capRef []).getD i 0)

/-- `TimeCapacityNode.insert_after` on the heap: the new node's capacity is a
fresh copy (`self.capacity[:]`) appended to the store. -/
def HNode.insert_after (arena : List HNode) (store : Store) (self : ℕ) (time : ℕ) :
    ℕ × List HNode × Store :=
  let s := arena.getD self default
  let newIdx := arena.length
  let node : HNode := ⟨time, store.length, s.next, some self⟩
  let store₁ := store ++ [store.getD s.capRef []]
  let a₁ := arena ++ [node]
  let a₂ := match s.next with
    | some nx => a₁.set nx { a₁.getD nx default with prev := some newIdx }
    | none => a₁
  (newIdx, a₂.set self { a₂.getD self default with next := some newIdx }, store₁)

/-- The predecessor scan of `decode` (pure reads). -/
def hMaxPredStart (arena : List HNode) (finishNodes : List (Option ℕ)) :
    List ℕ → ℕ → Except DecodeErr ℕ
  | [], s => .ok s
  | p :: ps, s =>
    match finishNodes.getD p none with
    | none => .error .attr
    | some f =>
      hMaxPredStart arena finishNodes ps
        (if (arena.getD s default).time < (arena.getD f default).time then f else s)

/-- The capacity search of `decode` (pure reads of arena and store). -/
def hWalkEnough (arena : List HNode) (store : Store) (demand : List ℤ) :
    ℕ → ℕ → Except DecodeErr ℕ
  | 0, _ => .error .fuel
  | fuel + 1, idx =>
    if HNode.enough store (arena.getD idx default) demand then .ok idx
    else
      match (arena.getD idx default).next with
      | none => .error .attr
      | some nx => hWalkEnough arena store demand fuel nx

/-- The consumption loop of `decode` on the heap: `t.consume(demand)` writes
the store entry referenced by `t.capRef`; the arena itself is read-only. -/
def hConsumeWalk (arena : List HNode) (demand : List ℤ) (finishIdx : ℕ) :
    ℕ → ℕ → Store → Except DecodeErr Store
  | 0, _, _ => .error .fuel
  | fuel + 1, t, store =>
    if t = finishIdx then .ok store
    else
      let nd := arena.getD t default
      let store' := store.set nd.capRef (consumeCap (store.getD nd.capRef []) demand)
      match nd.next with
      | none => .error .attr
      | some nx => hConsumeWalk arena demand finishIdx fuel nx store'

/-- One iteration of the `for i in alist` loop of `decode`, heap version. -/
def hDecodeStep (duration : List ℕ) (predecessors : List (List ℕ))
    (demands : List (List ℤ)) (st : HDecodeState) (i : ℕ) :
    Except DecodeErr HDecodeState := do
  let start₀ ← hMaxPredStart st.arena st.finishNodes (predecessors.getD i []) 0
  let node ← hWalkEnough st.arena st.store (demands.getD i []) (st.arena.length + 1) start₀
  let finishTime := (st.arena.getD node default).time + duration.getD i 0
  let (finishIdx, arena₁, store₁) :=
    match (st.arena.getD node default).next with
    | none => HNode.insert_after st.arena st.store node finishTime
    | some nx =>
      if (st.arena.getD nx default).time ≠ finishTime
      then HNode.insert_after st.arena st.store node finishTime
      else (nx, st.arena, st.store)
  let store₂ ← hConsumeWalk arena₁ (demands.getD i []) finishIdx (arena₁.length + 1) node store₁
  .ok { arena := arena₁, store := store₂,
        starts := st.starts.set i (arena₁.getD node default).time,
        finishNodes := st.finishNodes.set i (some finishIdx) }

/-- `decode` on the heap.  `store₀` holds every pre-existing object (among them
the caller's `capacity` list at index `capRef₀`, and any `demands` rows);
`root = TimeCapacityNode(0, capacity[:])` appends a fresh copy. -/
def hDecodeRun (alist : List ℕ) (duration : List ℕ) (predecessors : List (List ℕ))
    (demands : List (List ℤ)) (store₀ : Store) (capRef₀ : ℕ) :
    Except DecodeErr HDecodeState :=
  let n := duration.length
  let st₀ : HDecodeState :=
    { arena := [⟨0, store₀.length, none, none⟩],
      store := store₀ ++ [store₀.getD capRef₀ []],
      starts := List.replicate n 0,
      finishNodes := (List.replicate n (none : Option ℕ)).set 0 (some 0) }
  alist.foldlM (hDecodeStep duration predecessors demands) st₀

/-- All arena nodes reference store objects allocated at or after index `L`
(i.e. none of them aliases a pre-existing object). -/
def HCapInv (L : ℕ) (arena : List HNode) : Prop :=
  ∀ j < arena.length, L ≤ (arena.getD j default).capRef

/-! ## Theorems -/

/-! ### List utilities -/

theorem getD_set_self {α : Type} (l : List α) (k : ℕ) (v d : α) (h : k < l.length) :
    (l.set k v).getD k d = v := by
  simp [List.getD_eq_getElem?_getD, List.getElem?_set_self', List.getElem?_eq_getElem h]

theorem getD_set_ne {α : Type} (l : List α) (k j : ℕ) (v d : α) (h : k ≠ j) :
    (l.set k v).getD j d = l.getD j d := by
  simp [List.getD_eq_getElem?_getD, List.getElem?_set_ne h]

theorem getD_concat_lt {α : Type} (l : List α) (x d : α) (j : ℕ) (h : j < l.length) :
    (l ++ [x]).getD j d = l.getD j d := by
  simp [List.getD_eq_getElem?_getD, List.getElem?_append_left h]

theorem getD_concat_len {α : Type} (l : List α) (x d : α) :
    (l ++ [x]).getD l.length d = x := by
  simp [List.getD_eq_getElem?_getD, List.getElem?_concat_length]

theorem getLastD_mem {α : Type} (l : List α) (d : α) (h : l ≠ []) : l.getLastD d ∈ l := by
  induction l generalizing d with
  | nil => exact absurd rfl h
  | cons a l ih =>
    cases l with
    | nil => simp
    | cons b l' =>
      rw [List.getLastD_cons]
      exact .tail _ (ih a (by simp))

theorem getLastD_append {α : Type} (X B : List α) (d : α) (h : B ≠ []) :
    (X ++ B).getLastD d = B.getLastD d := by
  rw [List.getLastD_eq_getLast?, List.getLastD_eq_getLast?,
    List.getLast?_append_of_ne_nil X h]

/-! ### Chain structure of the breakpoint arena -/

theorem chainFrom_ne_nil {arena : Arena} {i : ℕ} {S : List ℕ}
    (h : ChainFrom arena i S) : S ≠ [] := by
  cases h <;> simp

theorem chainFrom_head {arena : Arena} {i : ℕ} {S : List ℕ}
    (h : ChainFrom arena i S) : ∃ rest, S = i :: rest := by
  cases h with
  | last i h => exact ⟨[], rfl⟩
  | cons i j rest h hc => exact ⟨rest, rfl⟩

theorem chainFrom_cons_inv {arena : Arena} {i a : ℕ} {l : List ℕ}
    (h : ChainFrom arena i (a :: l)) :
    i = a ∧ (l = [] ∧ (arena.getD i default).next = none ∨
      ∃ j, (arena.getD i default).next = some j ∧ ChainFrom arena j l) := by
  cases h with
  | last i h => exact ⟨rfl, .inl ⟨rfl, h⟩⟩
  | cons i j rest h hc => exact ⟨rfl, .inr ⟨j, h, hc⟩⟩

theorem chainFrom_congr {arena arena' : Arena} :
    ∀ {i : ℕ} {S : List ℕ}, ChainFrom arena i S →
      (∀ j ∈ S, (arena'.getD j default).next = (arena.getD j default).next) →
      ChainFrom arena' i S := by
  intro i S h
  induction h with
  | last i h =>
    intro hnext
    exact .last i (by rw [hnext i (.head _)]; exact h)
  | cons i j rest h hc ih =>
    intro hnext
    exact .cons i j rest (by rw [hnext i (.head _)]; exact h)
      (ih fun x hx => hnext x (.tail _ hx))

theorem chainFrom_getLast_next {arena : Arena} :
    ∀ {i : ℕ} {S : List ℕ}, ChainFrom arena i S →
      (arena.getD (S.getLastD 0) default).next = none := by
  intro i S h
  induction h with
  | last i h => simpa using h
  | cons i j rest h hc ih =>
    obtain ⟨rest', rfl⟩ := chainFrom_head hc
    simpa [List.getLastD_cons] using ih

theorem chainFrom_next_decomp {arena : Arena} :
    ∀ (A : List ℕ) {i : ℕ} (nd : ℕ) (B : List ℕ),
      ChainFrom arena i (A ++ nd :: B) →
      (arena.getD nd default).next = B.head? := by
  intro A
  induction A with
  | nil =>
    intro i nd B h
    obtain ⟨rfl, h'⟩ := chainFrom_cons_inv (by simpa using h)
    rcases h' with ⟨rfl, hn⟩ | ⟨j, hn, hc⟩
    · simpa using hn
    · obtain ⟨r, rfl⟩ := chainFrom_head hc
      simpa using hn
  | cons a A' ih =>
    intro i nd B h
    rw [List.cons_append] at h
    obtain ⟨rfl, h'⟩ := chainFrom_cons_inv h
    rcases h' with ⟨hnil, _⟩ | ⟨j, hn, hc⟩
    · exact absurd hnil (by simp)
    · exact ih nd B hc

theorem chainFrom_suffix {arena : Arena} :
    ∀ {i : ℕ} {S : List ℕ}, ChainFrom arena i S → ∀ t ∈ S,
      ∃ S', ChainFrom arena t S' ∧ (∀ x ∈ S', x ∈ S) ∧
        S'.getLastD 0 = S.getLastD 0 ∧ S'.length ≤ S.length := by
  intro i S h
  induction h with
  | last i hnone =>
    intro t ht
    rw [List.mem_singleton] at ht
    subst ht
    exact ⟨[t], .last t hnone, by simp, rfl, le_refl _⟩
  | cons i j rest hnext hc ih =>
    intro t ht
    rcases List.mem_cons.mp ht with rfl | ht
    · exact ⟨t :: rest, .cons t j rest hnext hc, fun x hx => hx, rfl, le_refl _⟩
    · obtain ⟨S', h1, h2, h3, h4⟩ := ih t ht
      obtain ⟨r0, rfl⟩ := chainFrom_head hc
      refine ⟨S', h1, fun x hx => .tail _ (h2 x hx), ?_, ?_⟩
      · rw [h3]; simp [List.getLastD_cons]
      · simp only [List.length_cons] at h4 ⊢; omega

/-! ### Specifications of the profile operations -/

theorem enough_of_le {nd : TimeCapacityNode} {demand : List ℤ}
    (hlen : demand.length = nd.capacity.length)
    (hle : ∀ r < nd.capacity.length, demand.getD r 0 ≤ nd.capacity.getD r 0) :
    nd.enough demand = true := by
  simp only [TimeCapacityNode.enough, List.all_eq_true]
  intro r hr
  rw [List.mem_range] at hr
  simpa using hle r (hlen ▸ hr)

theorem insert_after_length (arena : Arena) (nd t : ℕ) :
    (TimeCapacityNode.insert_after arena nd t).2.length = arena.length + 1 := by
  unfold TimeCapacityNode.insert_after
  dsimp only
  split <;> simp

theorem insert_after_getD_new (arena : Arena) (nd t : ℕ) (h : nd < arena.length)
    (hnx : ∀ k, (arena.getD nd default).next = some k → k < arena.length) :
    (TimeCapacityNode.insert_after arena nd t).2.getD arena.length default =
      ⟨t, (arena.getD nd default).capacity, (arena.getD nd default).next, some nd⟩ := by
  unfold TimeCapacityNode.insert_after
  dsimp only
  split
  next nx hn =>
    have hx : nx < arena.length := hnx nx hn
    rw [getD_set_ne _ _ _ _ _ (by omega), getD_set_ne _ _ _ _ _ (by omega), getD_concat_len]
  next hn =>
    rw [getD_set_ne _ _ _ _ _ (by omega), getD_concat_len]

theorem insert_after_getD_self (arena : Arena) (nd t : ℕ) (h : nd < arena.length)
    (hself : (arena.getD nd default).next ≠ some nd) :
    (TimeCapacityNode.insert_after arena nd t).2.getD nd default =
      { arena.getD nd default with next := some arena.length } := by
  unfold TimeCapacityNode.insert_after
  dsimp only
  split
  next nx hn =>
    have hx : nx ≠ nd := fun he => hself (he ▸ hn)
    rw [getD_set_self _ _ _ _ (by simp only [List.length_set, List.length_append]; simp; omega),
      getD_set_ne _ _ _ _ _ hx, getD_concat_lt _ _ _ _ h]
  next hn =>
    rw [getD_set_self _ _ _ _ (by simp only [List.length_append]; simp; omega),
      getD_concat_lt _ _ _ _ h]

theorem insert_after_getD_other (arena : Arena) (nd t j : ℕ) (hj : j ≠ nd)
    (hjlen : j < arena.length) :
    ((TimeCapacityNode.insert_after arena nd t).2.getD j default).next
        = (arena.getD j default).next ∧
    ((TimeCapacityNode.insert_after arena nd t).2.getD j default).time
        = (arena.getD j default).time ∧
    ((TimeCapacityNode.insert_after arena nd t).2.getD j default).capacity
        = (arena.getD j default).capacity := by
  unfold TimeCapacityNode.insert_after
  dsimp only
  split
  next nx hn =>
    rw [getD_set_ne _ _ _ _ _ (Ne.symm hj)]
    by_cases hx : nx = j
    · subst hx
      rw [getD_set_self _ _ _ _ (by simp only [List.length_append]; simp; omega),
        getD_concat_lt _ _ _ _ hjlen]
      exact ⟨rfl, rfl, rfl⟩
    · rw [getD_set_ne _ _ _ _ _ hx, getD_concat_lt _ _ _ _ hjlen]
      exact ⟨rfl, rfl, rfl⟩
  next hn =>
    rw [getD_set_ne _ _ _ _ _ (Ne.symm hj), getD_concat_lt _ _ _ _ hjlen]
    exact ⟨rfl, rfl, rfl⟩

theorem set_capacity_getD (arena : Arena) (nd : ℕ) (c : List ℤ) (j : ℕ) :
    (((arena.set nd { arena.getD nd default with capacity := c }).getD j default).next
        = (arena.getD j default).next) ∧
    (((arena.set nd { arena.getD nd default with capacity := c }).getD j default).time
        = (arena.getD j default).time) := by
  by_cases hj : j = nd
  · subst hj
    by_cases hl : j < arena.length
    · rw [getD_set_self _ _ _ _ hl]
      exact ⟨rfl, rfl⟩
    · rw [List.set_eq_of_length_le (by omega)]
      exact ⟨rfl, rfl⟩
  · rw [getD_set_ne _ _ _ _ _ (Ne.symm hj)]
    exact ⟨rfl, rfl⟩

theorem consumeWalk_one (demand : List ℤ) (fin nd : ℕ) (fuel : ℕ) (arena : Arena)
    (hne : nd ≠ fin) (hnext : (arena.getD nd default).next = some fin) (hfuel : 2 ≤ fuel) :
    consumeWalk demand fin fuel nd arena = .ok
      (arena.set nd { arena.getD nd default with
        capacity := consumeCap (arena.getD nd default).capacity demand }) := by
  match fuel, hfuel with
  | fuel + 2, _ =>
    simp only [List.getD_eq_getElem?_getD] at hnext
    simp [consumeWalk, hne, hnext]

theorem insert_after_fst (arena : Arena) (nd t : ℕ) :
    (TimeCapacityNode.insert_after arena nd t).1 = arena.length := rfl

theorem arenaInv_mem {capacity : List ℤ} {arena : Arena} {L : List ℕ}
    (h : ArenaInv capacity arena L) {j : ℕ} (hj : j < arena.length) : j ∈ L := by
  by_contra hmem
  have hsub : L.toFinset ⊆ (Finset.range arena.length).erase j := by
    intro x hx
    rw [List.mem_toFinset] at hx
    exact Finset.mem_erase.mpr ⟨fun he => hmem (he ▸ hx), Finset.mem_range.mpr (h.memLt x hx)⟩
  have hcard := Finset.card_le_card hsub
  rw [List.toFinset_card_of_nodup h.nodup,
    Finset.card_erase_of_mem (Finset.mem_range.mpr hj), Finset.card_range] at hcard
  have hlen := h.len
  omega

theorem walkEnough_finds {arena : Arena} {demand : List ℤ} :
    ∀ {idx : ℕ} {S : List ℕ}, ChainFrom arena idx S →
      ∀ fuel, S.length ≤ fuel →
      (∃ y ∈ S, (arena.getD y default).enough demand = true) →
      ∃ j, walkEnough arena demand fuel idx = .ok j ∧ j ∈ S ∧
        (arena.getD j default).enough demand = true := by
  intro idx S h
  induction h with
  | last i hnone =>
    intro fuel hfuel hex
    match fuel, hfuel with
    | fuel + 1, _ =>
      obtain ⟨y, hy, hen⟩ := hex
      rw [List.mem_singleton] at hy
      subst hy
      exact ⟨y, by simp only [walkEnough]; rw [if_pos hen], .head _, hen⟩
  | cons i j rest hnext hc ih =>
    intro fuel hfuel hex
    match fuel, hfuel with
    | fuel + 1, hfuel =>
      by_cases hen : (arena.getD i default).enough demand = true
      · exact ⟨i, by simp only [walkEnough]; rw [if_pos hen], .head _, hen⟩
      · have hex' : ∃ y ∈ rest, (arena.getD y default).enough demand = true := by
          obtain ⟨y, hy, hyen⟩ := hex
          rcases List.mem_cons.mp hy with rfl | hy
          · exact absurd hyen hen
          · exact ⟨y, hy, hyen⟩
        have hlen : rest.length ≤ fuel := by
          simp only [List.length_cons] at hfuel; omega
        obtain ⟨j', hw, hj, hjen⟩ := ih fuel hlen hex'
        refine ⟨j', ?_, .tail _ hj, hjen⟩
        simp only [walkEnough]
        rw [if_neg hen, hnext]
        exact hw

theorem maxPredStart_ok {arena : Arena} {fn : List (Option ℕ)}
    (hval : ∀ p f, fn.getD p none = some f → f < arena.length) :
    ∀ (ps : List ℕ) (s : ℕ), s < arena.length →
      (∀ p ∈ ps, fn.getD p none ≠ none) →
      ∃ t, maxPredStart arena fn ps s = .ok t ∧ t < arena.length := by
  intro ps
  induction ps with
  | nil => intro s hs _; exact ⟨s, rfl, hs⟩
  | cons p ps ih =>
    intro s hs hall
    match hfp : fn.getD p none with
    | none => exact absurd hfp (hall p (.head _))
    | some f =>
      have hf := hval p f hfp
      simp only [maxPredStart, hfp]
      refine ih _ ?_ (fun q hq => hall q (.tail _ hq))
      split
      · exact hf
      · exact hs

theorem chainFrom_insert (arena : Arena) (nd t : ℕ) (hlen : nd < arena.length) :
    ∀ (A : List ℕ) {i : ℕ} (B : List ℕ),
      ChainFrom arena i (A ++ nd :: B) →
      (A ++ nd :: B).Nodup →
      (∀ j ∈ A ++ nd :: B, j < arena.length) →
      ChainFrom (TimeCapacityNode.insert_after arena nd t).2 i
        (A ++ nd :: arena.length :: B) := by
  intro A
  induction A with
  | nil =>
    intro i B h hnd hmem
    simp only [List.nil_append] at h hnd hmem ⊢
    obtain ⟨rfl, h'⟩ := chainFrom_cons_inv h
    have hself : (arena.getD i default).next ≠ some i := by
      rcases h' with ⟨rfl, hn⟩ | ⟨j, hn, hc⟩
      · rw [hn]; simp
      · rw [hn]
        intro he
        injection he with he
        subst he
        obtain ⟨r, rfl⟩ := chainFrom_head hc
        exact (List.nodup_cons.mp hnd).1 (.head _)
    refine .cons i arena.length (arena.length :: B)
      (by rw [insert_after_getD_self arena i t hlen hself]) ?_
    rcases h' with ⟨rfl, hn⟩ | ⟨j, hn, hc⟩
    · refine .last arena.length ?_
      rw [insert_after_getD_new arena i t hlen
        (by intro k hk; rw [hn] at hk; cases hk), hn]
    · obtain ⟨r, rfl⟩ := chainFrom_head hc
      refine .cons arena.length j (j :: r) ?_ ?_
      · rw [insert_after_getD_new arena i t hlen
          (fun k hk => hmem k (by rw [hn] at hk; injection hk with hk; rw [← hk]; exact .tail _ (.head _))), hn]
      · refine chainFrom_congr hc ?_
        intro x hx
        have hxnd : x ≠ i := fun he => (List.nodup_cons.mp hnd).1 (he ▸ hx)
        exact (insert_after_getD_other arena i t x hxnd (hmem x (.tail _ hx))).1
  | cons a A' ih =>
    intro i B h hnd hmem
    rw [List.cons_append] at h hnd hmem ⊢
    obtain ⟨rfl, h'⟩ := chainFrom_cons_inv h
    rcases h' with ⟨hnil, _⟩ | ⟨j, hn, hc⟩
    · exact absurd hnil (by simp)
    · have hnd' := (List.nodup_cons.mp hnd).2
      have hand : i ≠ nd := by
        intro he
        exact (List.nodup_cons.mp hnd).1 (by rw [he]; exact List.mem_append_right A' (.head _))
      refine .cons i j (A' ++ nd :: arena.length :: B) ?_
        (ih B hc hnd' (fun x hx => hmem x (.tail _ hx)))
      rw [(insert_after_getD_other arena nd t i hand (hmem i (.head _))).1]
      exact hn

theorem exc_ok_bind {α β : Type} (a : α) (f : α → Except DecodeErr β) :
    (Except.ok a : Except DecodeErr α) >>= f = f a := rfl

/-- Evaluation of one decoder step, given the results of its three phases. -/
theorem decodeStep_eq (duration : List ℕ) (predecessors : List (List ℕ))
    (demands : List (List ℤ)) (st : DecodeState) (i : ℕ)
    (s0 node fin : ℕ) (arena₁ arena₂ : Arena)
    (h1 : maxPredStart st.arena st.finishNodes (predecessors.getD i []) 0 = .ok s0)
    (h2 : walkEnough st.arena (demands.getD i []) (st.arena.length + 1) s0 = .ok node)
    (h3 : (match (st.arena.getD node default).next with
        | none => TimeCapacityNode.insert_after st.arena node
            ((st.arena.getD node default).time + duration.getD i 0)
        | some nx =>
          if (st.arena.getD nx default).time
              ≠ (st.arena.getD node default).time + duration.getD i 0
          then TimeCapacityNode.insert_after st.arena node
            ((st.arena.getD node default).time + duration.getD i 0)
          else (nx, st.arena)) = (fin, arena₁))
    (h4 : consumeWalk (demands.getD i []) fin (arena₁.length + 1) node arena₁ = .ok arena₂) :
    decodeStep duration predecessors demands st i = .ok
      { arena := arena₂,
        starts := st.starts.set i (arena₂.getD node default).time,
        finishNodes := st.finishNodes.set i (some fin) } := by
  unfold decodeStep
  simp only [h1, exc_ok_bind, h2, h3, h4]

theorem nodup_insert_mid {A B : List ℕ} {node m : ℕ}
    (h : (A ++ node :: B).Nodup) (hm : m ∉ A ++ node :: B) :
    (A ++ node :: m :: B).Nodup := by
  have e1 : A ++ node :: m :: B = (A ++ [node]) ++ m :: B := by simp
  have e2 : (A ++ [node]) ++ B = A ++ node :: B := by simp
  rw [e1, List.nodup_middle, List.nodup_cons, e2]
  exact ⟨hm, h⟩

theorem node_ne_last_of_next_some {arena : Arena} {L : List ℕ} {i node nx : ℕ}
    (hc : ChainFrom arena i L) (hn : (arena.getD node default).next = some nx) :
    L.getLastD 0 ≠ node := by
  intro he
  have hnone := chainFrom_getLast_next hc
  rw [he, hn] at hnone
  cases hnone

theorem arenaInv_next_lt {capacity : List ℤ} {arena : Arena} {L : List ℕ}
    (hA : ArenaInv capacity arena L) :
    ∀ j < arena.length, ∀ k, (arena.getD j default).next = some k → k < arena.length := by
  intro j hj k hk
  obtain ⟨A, B, hLB⟩ := List.append_of_mem (arenaInv_mem hA hj)
  rw [chainFrom_next_decomp A j B (hLB ▸ hA.chain)] at hk
  cases B with
  | nil => cases hk
  | cons b B' =>
    have hbk : b = k := by injection hk
    subst hbk
    exact hA.memLt b (hLB ▸ (by simp : b ∈ A ++ j :: b :: B'))

/-- Consuming capacity at a non-last chain node preserves the arena invariant. -/
theorem consume_arenaInv (capacity : List ℤ) (arena : Arena) (L : List ℕ) (node : ℕ)
    (c : List ℤ) (hA : ArenaInv capacity arena L) (hlast : L.getLastD 0 ≠ node) :
    ArenaInv capacity (arena.set node { arena.getD node default with capacity := c }) L := by
  refine ⟨chainFrom_congr hA.chain (fun j _ => (set_capacity_getD arena node c j).1),
    hA.nodup, ?_, ?_, ?_⟩
  · rw [List.length_set]; exact hA.len
  · intro j hj
    rw [List.length_set]
    exact hA.memLt j hj
  · rw [getD_set_ne _ _ _ _ _ (fun he => hlast he.symm)]
    exact hA.lastFull

/-- Splicing a fresh breakpoint right after `node` preserves the arena invariant:
the new chain visits the fresh index `arena.length` directly after `node`, and
the final breakpoint of the new chain still carries the full capacity (it is
either the old final breakpoint or, when `node` was last, the fresh copy of its
full-capacity vector). -/
theorem insert_after_arenaInv (capacity : List ℤ) (arena : Arena) (L A B : List ℕ)
    (node ft : ℕ) (hA : ArenaInv capacity arena L) (hLB : L = A ++ node :: B)
    (hnodeLt : node < arena.length) :
    ArenaInv capacity (TimeCapacityNode.insert_after arena node ft).2
      (A ++ node :: arena.length :: B) ∧
    (A ++ node :: arena.length :: B).getLastD 0 ≠ node := by
  have hchain0 : ChainFrom arena 0 (A ++ node :: B) := hLB ▸ hA.chain
  have hnodup0 : (A ++ node :: B).Nodup := hLB ▸ hA.nodup
  have hmem0 : ∀ j ∈ A ++ node :: B, j < arena.length := fun j hj => hA.memLt j (hLB ▸ hj)
  have hnext0 : (arena.getD node default).next = B.head? :=
    chainFrom_next_decomp A node B hchain0
  have hnx0 : ∀ k, (arena.getD node default).next = some k → k < arena.length := by
    intro k hk
    rw [hnext0] at hk
    cases B with
    | nil => cases hk
    | cons b B' =>
      have hbk : b = k := by injection hk
      subst hbk
      exact hmem0 b (by simp)
  have hfresh : arena.length ∉ A ++ node :: B :=
    fun hmem => lt_irrefl _ (hmem0 _ hmem)
  have hnodB : node ∉ B := by
    have := List.nodup_middle.mp hnodup0
    rw [List.nodup_cons] at this
    exact fun hb => this.1 (List.mem_append_right A hb)
  have hlen1 := insert_after_length arena node ft
  refine ⟨⟨chainFrom_insert arena node ft hnodeLt A B hchain0 hnodup0 hmem0,
    nodup_insert_mid hnodup0 hfresh, ?_, ?_, ?_⟩, ?_⟩
  · have := hA.len
    rw [hLB] at this
    simp only [List.length_append, List.length_cons] at this ⊢
    omega
  · intro j hj
    rw [hlen1]
    simp only [List.mem_append, List.mem_cons] at hj
    rcases hj with hj | hj | hj | hj
    · exact lt_trans (hmem0 j (List.mem_append_left _ hj)) (by omega)
    · exact lt_trans (hj ▸ hnodeLt) (by omega)
    · omega
    · exact lt_trans (hmem0 j (List.mem_append_right A (.tail _ hj))) (by omega)
  · cases B with
    | nil =>
      have hlast : (A ++ [node, arena.length]).getLastD 0 = arena.length := by
        rw [getLastD_append _ _ _ (by simp)]
        simp [List.getLastD_cons]
      have hnodeLast : node = L.getLastD 0 := by
        rw [hLB, getLastD_append _ _ _ (by simp)]
        simp [List.getLastD_cons]
      rw [show A ++ node :: [arena.length] = A ++ [node, arena.length] by simp, hlast]
      rw [insert_after_getD_new arena node ft hnodeLt hnx0]
      show (arena.getD node default).capacity = capacity
      rw [hnodeLast]
      exact hA.lastFull
    | cons nx B' =>
      have hBne : (nx :: B') ≠ [] := by simp
      have hlast1 : (A ++ node :: arena.length :: nx :: B').getLastD 0
          = (nx :: B').getLastD 0 := by
        rw [show A ++ node :: arena.length :: nx :: B'
            = (A ++ [node, arena.length]) ++ nx :: B' by simp]
        exact getLastD_append _ _ _ hBne
      have hlast2 : L.getLastD 0 = (nx :: B').getLastD 0 := by
        rw [hLB, show A ++ node :: nx :: B' = (A ++ [node]) ++ nx :: B' by simp]
        exact getLastD_append _ _ _ hBne
      have hlmem : (nx :: B').getLastD 0 ∈ nx :: B' := getLastD_mem _ _ hBne
      have hlne : (nx :: B').getLastD 0 ≠ node := fun he => hnodB (he ▸ hlmem)
      have hllt : (nx :: B').getLastD 0 < arena.length :=
        hmem0 _ (List.mem_append_right A (.tail _ hlmem))
      rw [hlast1, (insert_after_getD_other arena node ft _ hlne hllt).2.2, ← hlast2]
      exact hA.lastFull
  · cases B with
    | nil =>
      rw [show A ++ node :: [arena.length] = A ++ [node, arena.length] by simp,
        getLastD_append _ _ _ (by simp)]
      simp only [List.getLastD_cons]
      intro he
      exact absurd (he ▸ hnodeLt) (lt_irrefl _)
    | cons nx B' =>
      rw [show A ++ node :: arena.length :: nx :: B'
          = (A ++ [node, arena.length]) ++ nx :: B' by simp,
        getLastD_append _ _ _ (by simp)]
      exact fun he => hnodB (he ▸ getLastD_mem _ _ (by simp))

/-- One decoder step succeeds and preserves the loop invariant, provided every
predecessor of `i` has already been decoded and `i`'s demand fits within the
total capacity (so that the full-capacity final breakpoint satisfies the
capacity search). -/
theorem decodeStep_ok (duration : List ℕ) (predecessors : List (List ℕ))
    (demands : List (List ℤ)) (capacity : List ℤ) (n : ℕ) (st : DecodeState) (i : ℕ)
    (hinv : DecodeInv n capacity st)
    (hi : i < n)
    (hpre : ∀ p ∈ predecessors.getD i [], st.finishNodes.getD p none ≠ none)
    (hdlen : (demands.getD i []).length = capacity.length)
    (hdle : ∀ r < capacity.length, (demands.getD i []).getD r 0 ≤ capacity.getD r 0) :
    ∃ st', decodeStep duration predecessors demands st i = .ok st' ∧
      DecodeInv n capacity st' ∧
      st'.finishNodes.getD i none ≠ none ∧
      (∀ p, p ≠ i → st'.finishNodes.getD p none = st.finishNodes.getD p none) := by
  obtain ⟨L, hA⟩ := hinv.arenaInv
  have hwf := hinv.wf
  have hlenpos : 0 < st.arena.length := List.length_pos.mpr hwf.ne
  obtain ⟨s0, hmp, hs0⟩ := maxPredStart_ok hwf.finValid (predecessors.getD i []) 0 hlenpos hpre
  obtain ⟨S, hcS, hsub, hlastS, hSlen⟩ := chainFrom_suffix hA.chain s0 (arenaInv_mem hA hs0)
  have hex : ∃ y ∈ S, (st.arena.getD y default).enough (demands.getD i []) = true := by
    refine ⟨S.getLastD 0, getLastD_mem S 0 (chainFrom_ne_nil hcS), ?_⟩
    rw [hlastS]
    refine enough_of_le ?_ ?_
    · rw [hA.lastFull]; exact hdlen
    · rw [hA.lastFull]; exact hdle
  have hfuel : S.length ≤ st.arena.length + 1 := by
    have h1 := hA.len
    omega
  obtain ⟨node, hwalk, hnodeS, hnodeEn⟩ := walkEnough_finds hcS (st.arena.length + 1) hfuel hex
  have hnodeL : node ∈ L := hsub node hnodeS
  have hnodeLt : node < st.arena.length := hA.memLt node hnodeL
  obtain ⟨A, B, hLB⟩ := List.append_of_mem hnodeL
  have hnext0 : (st.arena.getD node default).next = B.head? :=
    chainFrom_next_decomp A node B (hLB ▸ hA.chain)
  have hnodB : node ∉ B := by
    have h2 := List.nodup_middle.mp (hLB ▸ hA.nodup)
    rw [List.nodup_cons] at h2
    exact fun hb => h2.1 (List.mem_append_right A hb)
  have hbranch : ∃ fin arena₁ L₁,
      ((match (st.arena.getD node default).next with
        | none => TimeCapacityNode.insert_after st.arena node
            ((st.arena.getD node default).time + duration.getD i 0)
        | some nx =>
          if (st.arena.getD nx default).time
              ≠ (st.arena.getD node default).time + duration.getD i 0
          then TimeCapacityNode.insert_after st.arena node
            ((st.arena.getD node default).time + duration.getD i 0)
          else (nx, st.arena)) = (fin, arena₁)) ∧
      ArenaInv capacity arena₁ L₁ ∧
      L₁.getLastD 0 ≠ node ∧
      (arena₁.getD node default).next = some fin ∧
      node ≠ fin ∧ fin < arena₁.length ∧ st.arena.length ≤ arena₁.length := by
    cases hB : B with
    | nil =>
      subst hB
      obtain ⟨hA1, hlast1⟩ := insert_after_arenaInv capacity st.arena L A []
        node ((st.arena.getD node default).time + duration.getD i 0) hA hLB hnodeLt
      refine ⟨st.arena.length,
        (TimeCapacityNode.insert_after st.arena node
          ((st.arena.getD node default).time + duration.getD i 0)).2,
        A ++ node :: st.arena.length :: [], ?_, hA1, hlast1, ?_, by omega, ?_, ?_⟩
      · rw [hnext0]
        rfl
      · rw [insert_after_getD_self st.arena node _ hnodeLt (by rw [hnext0]; simp)]
      · rw [insert_after_length]; omega
      · rw [insert_after_length]; omega
    | cons nx B' =>
      subst hB
      have hnxmem : nx ∈ L := hLB ▸ (by simp : nx ∈ A ++ node :: nx :: B')
      have hnxlt : nx < st.arena.length := hA.memLt nx hnxmem
      have hnxne : node ≠ nx := fun he => hnodB (he ▸ (.head _ : nx ∈ nx :: B'))
      by_cases htime : (st.arena.getD nx default).time
          ≠ (st.arena.getD node default).time + duration.getD i 0
      · obtain ⟨hA1, hlast1⟩ := insert_after_arenaInv capacity st.arena L A (nx :: B')
          node ((st.arena.getD node default).time + duration.getD i 0) hA hLB hnodeLt
        refine ⟨st.arena.length,
          (TimeCapacityNode.insert_after st.arena node
            ((st.arena.getD node default).time + duration.getD i 0)).2,
          A ++ node :: st.arena.length :: nx :: B', ?_, hA1, hlast1, ?_, by omega, ?_, ?_⟩
        · rw [hnext0]
          show (if _ then _ else _) = _
          rw [if_pos htime]
          rfl
        · rw [insert_after_getD_self st.arena node _ hnodeLt
            (by rw [hnext0]; intro he; injection he with he; exact hnxne he.symm)]
        · rw [insert_after_length]; omega
        · rw [insert_after_length]; omega
      · refine ⟨nx, st.arena, L, ?_, hA, ?_, ?_, hnxne, hnxlt, le_refl _⟩
        · rw [hnext0]
          show (if _ then _ else _) = _
          rw [if_neg htime]
        · exact node_ne_last_of_next_some hA.chain (by rw [hnext0]; rfl)
        · rw [hnext0]; rfl
  obtain ⟨fin, arena₁, L₁, hmatch, hA1, hlast1, hnext1, hnefin, hfinlt, hgrow⟩ := hbranch
  have h4 := consumeWalk_one (demands.getD i []) fin node (arena₁.length + 1) arena₁
    hnefin hnext1 (by omega)
  have hA2 := consume_arenaInv capacity arena₁ L₁ node
    (consumeCap (arena₁.getD node default).capacity (demands.getD i [])) hA1 hlast1
  refine ⟨_, decodeStep_eq duration predecessors demands st i s0 node fin arena₁ _
    hmp hwalk hmatch h4, ?_, ?_, ?_⟩
  · refine ⟨⟨?_, ?_, ?_, ?_, ?_⟩, ⟨L₁, hA2⟩⟩
    · show (arena₁.set node _) ≠ []
      rw [← List.length_pos, List.length_set]
      omega
    · show ∀ j < (arena₁.set node _).length, _
      exact arenaInv_next_lt hA2
    · intro p f hf
      show f < (arena₁.set node _).length
      rw [List.length_set]
      by_cases hp : p = i
      · subst hp
        rw [getD_set_self _ _ _ _ (by rw [hwf.finLen]; exact hi)] at hf
        injection hf with hf
        omega
      · rw [getD_set_ne _ _ _ _ _ (fun he => hp he.symm)] at hf
        exact lt_of_lt_of_le (hwf.finValid p f hf) hgrow
    · show (st.starts.set i _).length = n
      rw [List.length_set]
      exact hwf.startsLen
    · show (st.finishNodes.set i _).length = n
      rw [List.length_set]
      exact hwf.finLen
  · show (st.finishNodes.set i (some fin)).getD i none ≠ none
    rw [getD_set_self _ _ _ _ (by rw [hwf.finLen]; exact hi)]
    simp
  · intro p hp
    show (st.finishNodes.set i (some fin)).getD p none = st.finishNodes.getD p none
    exact getD_set_ne _ _ _ _ _ (fun he => hp he.symm)

/-- The decoder's `for i in alist` loop succeeds on any suffix of the activity
list all of whose predecessors are either already decoded (`done`) or appear
earlier in the suffix. -/
theorem decodeLoop_ok (duration : List ℕ) (predecessors : List (List ℕ))
    (demands : List (List ℤ)) (capacity : List ℤ) (n : ℕ) :
    ∀ (rest done : List ℕ) (st : DecodeState),
      DecodeInv n capacity st →
      (∀ p ∈ done, st.finishNodes.getD p none ≠ none) →
      (∀ i ∈ rest, i < n) →
      (∀ pre i post, rest = pre ++ i :: post →
        ∀ p ∈ predecessors.getD i [], p ∈ done ++ pre) →
      (∀ i ∈ rest, (demands.getD i []).length = capacity.length ∧
        ∀ r < capacity.length, (demands.getD i []).getD r 0 ≤ capacity.getD r 0) →
      ∃ st', rest.foldlM (decodeStep duration predecessors demands) st = .ok st' := by
  intro rest
  induction rest with
  | nil => intro done st hinv _ _ _ _; exact ⟨st, rfl⟩
  | cons i rest ih =>
    intro done st hinv hdone hlt htopo hdem
    have hprei : ∀ p ∈ predecessors.getD i [], st.finishNodes.getD p none ≠ none := by
      intro p hp
      have hmem := htopo [] i rest rfl p hp
      rw [List.append_nil] at hmem
      exact hdone p hmem
    obtain ⟨st', hstep, hinv', hfi, hfp⟩ := decodeStep_ok duration predecessors demands
      capacity n st i hinv (hlt i (.head _)) hprei (hdem i (.head _)).1 (hdem i (.head _)).2
    have hdone' : ∀ p ∈ done ++ [i], st'.finishNodes.getD p none ≠ none := by
      intro p hp
      rcases List.mem_append.mp hp with hp | hp
      · by_cases hpi : p = i
        · subst hpi; exact hfi
        · rw [hfp p hpi]; exact hdone p hp
      · rw [List.mem_singleton] at hp
        subst hp; exact hfi
    have htopo' : ∀ pre j post, rest = pre ++ j :: post →
        ∀ p ∈ predecessors.getD j [], p ∈ (done ++ [i]) ++ pre := by
      intro pre j post he p hp
      have hmem := htopo (i :: pre) j post (by rw [he, List.cons_append]) p hp
      rw [show done ++ i :: pre = (done ++ [i]) ++ pre by simp] at hmem
      exact hmem
    obtain ⟨st'', hloop⟩ := ih (done ++ [i]) st' hinv' hdone'
      (fun j hj => hlt j (.tail _ hj)) htopo' (fun j hj => hdem j (.tail _ hj))
    refine ⟨st'', ?_⟩
    rw [List.foldlM_cons, hstep, exc_ok_bind]
    exact hloop

/-- A positionally-stated topological order yields, at every decomposition
`alist = pre ++ i :: post`, that all of `i`'s predecessors lie in `pre`. -/
theorem topo_decomp (alist : List ℕ) (predecessors : List (List ℕ))
    (htopo : ∀ k, k < alist.length → ∀ p ∈ predecessors.getD (alist.getD k 0) [],
      ∃ k', k' < k ∧ alist.getD k' 0 = p) :
    ∀ pre i post, alist = pre ++ i :: post → ∀ p ∈ predecessors.getD i [], p ∈ pre := by
  intro pre i post he p hp
  have hklen : pre.length < alist.length := by rw [he]; simp
  have hget : alist.getD pre.length 0 = i := by
    rw [he, List.getD_eq_getElem?_getD, List.getElem?_append_right (le_refl _)]
    simp
  obtain ⟨k', hk', hget'⟩ := htopo pre.length hklen p (by rw [hget]; exact hp)
  have heq : alist.getD k' 0 = pre.getD k' 0 := by
    rw [he, List.getD_eq_getElem?_getD, List.getD_eq_getElem?_getD,
      List.getElem?_append_left hk']
  rw [heq, List.getD_eq_getElem _ _ hk'] at hget'
  rw [← hget']
  exact List.getElem_mem hk'

/-- C4: `ActivityListDecoder.decode` terminates with a result (no `None`
dereference, no exhausted fuel) on every topologically ordered activity list
over activities of the network, provided every per-activity demand is
componentwise `≤` the total capacity: the capacity search can always stop at
the chain's final breakpoint, which retains the full original capacity
throughout the decode. -/
theorem c4_decode_terminates (alist duration : List ℕ) (predecessors : List (List ℕ))
    (demands : List (List ℤ)) (capacity : List ℤ)
    (hlt : ∀ i ∈ alist, i < duration.length)
    (htopo : ∀ k, k < alist.length → ∀ p ∈ predecessors.getD (alist.getD k 0) [],
      ∃ k', k' < k ∧ alist.getD k' 0 = p)
    (hdem : ∀ i ∈ alist, (demands.getD i []).length = capacity.length ∧
      ∀ r < capacity.length, (demands.getD i []).getD r 0 ≤ capacity.getD r 0) :
    ∃ starts, ActivityListDecoder.decode alist duration predecessors demands capacity
      = .ok starts := by
  have hinv0 : DecodeInv duration.length capacity
      { arena := [⟨0, capacity, none, none⟩],
        starts := List.replicate duration.length 0,
        finishNodes := (List.replicate duration.length (none : Option ℕ)).set 0 (some 0) } := by
    refine ⟨⟨by simp, ?_, ?_, by simp, by simp⟩,
      ⟨[0], .last 0 rfl, by simp, by simp, by simp, rfl⟩⟩
    · intro j hj k hk
      simp only [List.length_singleton] at hj
      have hj0 : j = 0 := by omega
      subst hj0
      simp at hk
    · intro p f hf
      show f < 1
      by_cases h0 : 0 < duration.length
      · by_cases hp : p = 0
        · subst hp
          rw [getD_set_self _ _ _ _ (by rw [List.length_replicate]; exact h0)] at hf
          injection hf with hf
          omega
        · rw [getD_set_ne _ _ _ _ _ (fun hx => hp hx.symm)] at hf
          rw [List.getD_eq_getElem?_getD, List.getElem?_replicate] at hf
          revert hf
          split <;> simp
      · rw [List.set_eq_of_length_le (by rw [List.length_replicate]; omega)] at hf
        rw [List.getD_eq_getElem?_getD, List.getElem?_replicate] at hf
        revert hf
        split <;> simp
  obtain ⟨st', hrun⟩ := decodeLoop_ok duration predecessors demands capacity duration.length
    alist [] _ hinv0 (by simp) hlt
    (fun pre i post he p hp => by
      rw [List.nil_append]
      exact topo_decomp alist predecessors htopo pre i post he p hp) hdem
  refine ⟨st'.starts, ?_⟩
  unfold ActivityListDecoder.decode decodeRun
  rw [hrun]
  rfl

/-- Witness for C4: a concrete two-activity chain decodes successfully. -/
theorem c4_decode_terminates_witness :
    ∃ starts, ActivityListDecoder.decode [0,1] [1,1] [[],[0]] [[1],[1]] [1]
      = .ok starts :=
  c4_decode_terminates [0,1] [1,1] [[],[0]] [[1],[1]] [1]
    (by decide) (by decide) (by decide)

theorem maxPredStart_lt {arena : Arena} {fn : List (Option ℕ)}
    (hval : ∀ p f, fn.getD p none = some f → f < arena.length) :
    ∀ (ps : List ℕ) (s t : ℕ), s < arena.length →
      maxPredStart arena fn ps s = .ok t → t < arena.length := by
  intro ps
  induction ps with
  | nil =>
    intro s t hs h
    injection h with h
    exact h ▸ hs
  | cons p ps ih =>
    intro s t hs h
    match hfp : fn.getD p none with
    | none => rw [maxPredStart, hfp] at h; cases h
    | some f =>
      rw [maxPredStart, hfp] at h
      refine ih _ t ?_ h
      split
      · exact hval p f hfp
      · exact hs

theorem walkEnough_lt {arena : Arena} {demand : List ℤ}
    (hnext : ∀ j < arena.length, ∀ k, (arena.getD j default).next = some k → k < arena.length) :
    ∀ (fuel idx node : ℕ), idx < arena.length →
      walkEnough arena demand fuel idx = .ok node → node < arena.length := by
  intro fuel
  induction fuel with
  | zero => intro idx node _ h; cases h
  | succ fuel ih =>
    intro idx node hidx h
    simp only [walkEnough] at h
    by_cases hen : (arena.getD idx default).enough demand = true
    · rw [if_pos hen] at h
      injection h with h
      exact h ▸ hidx
    · rw [if_neg hen] at h
      cases hnx : (arena.getD idx default).next with
      | none => rw [hnx] at h; cases h
      | some nx =>
        rw [hnx] at h
        exact ih nx node (hnext idx hidx nx hnx) h

theorem set_node_getD (a : Arena) (t : ℕ) (v : TimeCapacityNode) (j : ℕ)
    (hn : v.next = (a.getD t default).next) (htm : v.time = (a.getD t default).time) :
    ((a.set t v).getD j default).next = (a.getD j default).next ∧
    ((a.set t v).getD j default).time = (a.getD j default).time := by
  by_cases hj : j = t
  · subst hj
    by_cases hl : j < a.length
    · rw [getD_set_self _ _ _ _ hl]
      exact ⟨hn, htm⟩
    · rw [List.set_eq_of_length_le (by omega)]
      exact ⟨rfl, rfl⟩
  · rw [getD_set_ne _ _ _ _ _ (Ne.symm hj)]
    exact ⟨rfl, rfl⟩

theorem consumeWalk_preserves {demand : List ℤ} {fin : ℕ} :
    ∀ (fuel t : ℕ) (arena arena' : Arena),
      consumeWalk demand fin fuel t arena = .ok arena' →
      arena'.length = arena.length ∧
      (∀ j, (arena'.getD j default).time = (arena.getD j default).time) ∧
      (∀ j, (arena'.getD j default).next = (arena.getD j default).next) := by
  intro fuel
  induction fuel with
  | zero => intro t a a' h; cases h
  | succ fuel ih =>
    intro t a a' h
    simp only [consumeWalk] at h
    by_cases ht : t = fin
    · rw [if_pos ht] at h
      injection h with h
      subst h
      exact ⟨rfl, fun _ => rfl, fun _ => rfl⟩
    · rw [if_neg ht] at h
      cases hnx : (a.getD t default).next with
      | none => rw [hnx] at h; cases h
      | some nx =>
        rw [hnx] at h
        obtain ⟨h1, h2, h3⟩ := ih nx _ a' h
        have hspec := set_node_getD a t
          { time := (a.getD t default).time,
            capacity := consumeCap (a.getD t default).capacity demand,
            next := some nx, prev := (a.getD t default).prev }
        refine ⟨by rw [h1, List.length_set], ?_, ?_⟩
        · intro j; rw [h2 j, (hspec j (by rw [hnx]) rfl).2]
        · intro j; rw [h3 j, (hspec j (by rw [hnx]) rfl).1]

/-- Inversion of a successful decoder step into the results of its phases. -/
theorem decodeStep_inv (duration : List ℕ) (predecessors : List (List ℕ))
    (demands : List (List ℤ)) (st st' : DecodeState) (i : ℕ)
    (h : decodeStep duration predecessors demands st i = .ok st') :
    ∃ s0 node fin arena₁ arena₂,
      maxPredStart st.arena st.finishNodes (predecessors.getD i []) 0 = .ok s0 ∧
      walkEnough st.arena (demands.getD i []) (st.arena.length + 1) s0 = .ok node ∧
      ((match (st.arena.getD node default).next with
        | none => TimeCapacityNode.insert_after st.arena node
            ((st.arena.getD node default).time + duration.getD i 0)
        | some nx =>
          if (st.arena.getD nx default).time
              ≠ (st.arena.getD node default).time + duration.getD i 0
          then TimeCapacityNode.insert_after st.arena node
            ((st.arena.getD node default).time + duration.getD i 0)
          else (nx, st.arena)) = (fin, arena₁)) ∧
      consumeWalk (demands.getD i []) fin (arena₁.length + 1) node arena₁ = .ok arena₂ ∧
      st' = DecodeState.mk arena₂ (st.starts.set i (arena₂.getD node default).time)
        (st.finishNodes.set i (some fin)) := by
  cases hm : maxPredStart st.arena st.finishNodes (predecessors.getD i []) 0 with
  | error e =>
    unfold decodeStep at h
    rw [hm] at h
    exact absurd h (by simp [Bind.bind, Except.bind])
  | ok s0 =>
    cases hw : walkEnough st.arena (demands.getD i []) (st.arena.length + 1) s0 with
    | error e =>
      unfold decodeStep at h
      rw [hm, exc_ok_bind, hw] at h
      exact absurd h (by simp [Bind.bind, Except.bind])
    | ok node =>
      rcases hq : (match (st.arena.getD node default).next with
        | none => TimeCapacityNode.insert_after st.arena node
            ((st.arena.getD node default).time + duration.getD i 0)
        | some nx =>
          if (st.arena.getD nx default).time
              ≠ (st.arena.getD node default).time + duration.getD i 0
          then TimeCapacityNode.insert_after st.arena node
            ((st.arena.getD node default).time + duration.getD i 0)
          else (nx, st.arena)) with ⟨fin, arena₁⟩
      cases hc : consumeWalk (demands.getD i []) fin (arena₁.length + 1) node arena₁ with
      | error e =>
        unfold decodeStep at h
        rw [hm, exc_ok_bind, hw, exc_ok_bind] at h
        dsimp only at h
        rw [hq] at h
        dsimp only at h
        rw [hc] at h
        exact absurd h (by simp [Bind.bind, Except.bind])
      | ok arena₂ =>
        have heq := decodeStep_eq duration predecessors demands st i s0 node fin arena₁
          arena₂ hm hw hq hc
        rw [heq] at h
        injection h with h
        exact ⟨s0, node, fin, arena₁, arena₂, rfl, hw, hq, hc, h.symm⟩

theorem insert_after_getD_self' (arena : Arena) (nd t : ℕ) (h : nd < arena.length) :
    ((TimeCapacityNode.insert_after arena nd t).2.getD nd default).next
        = some arena.length ∧
    ((TimeCapacityNode.insert_after arena nd t).2.getD nd default).time
        = (arena.getD nd default).time ∧
    ((TimeCapacityNode.insert_after arena nd t).2.getD nd default).capacity
        = (arena.getD nd default).capacity := by
  unfold TimeCapacityNode.insert_after
  dsimp only
  split
  next nx hn =>
    rw [getD_set_self _ _ _ _ (by simp only [List.length_set, List.length_append]; simp; omega)]
    by_cases hx : nx = nd
    · subst hx
      rw [getD_set_self _ _ _ _ (by simp only [List.length_append]; simp; omega),
        getD_concat_lt _ _ _ _ h]
      exact ⟨rfl, rfl, rfl⟩
    · rw [getD_set_ne _ _ _ _ _ hx, getD_concat_lt _ _ _ _ h]
      exact ⟨rfl, rfl, rfl⟩
  next hn =>
    rw [getD_set_self _ _ _ _ (by simp only [List.length_append]; simp; omega),
      getD_concat_lt _ _ _ _ h]
    exact ⟨rfl, rfl, rfl⟩

/-- Shape of one successful decoder step: the arena only grows, recorded
breakpoint times persist, only activity `i`'s entries change, and `i`'s new
finish node's time is exactly its recorded start plus `duration[i]`. -/
theorem decodeStep_shape (duration : List ℕ) (predecessors : List (List ℕ))
    (demands : List (List ℤ)) (n : ℕ) (st st' : DecodeState) (i : ℕ)
    (hwf : WfPointers n st)
    (h : decodeStep duration predecessors demands st i = .ok st') :
    WfPointers n st' ∧
    st.arena.length ≤ st'.arena.length ∧
    (∀ j < st.arena.length, (st'.arena.getD j default).time = (st.arena.getD j default).time) ∧
    (∀ p, p ≠ i → st'.finishNodes.getD p none = st.finishNodes.getD p none) ∧
    (∀ p, p ≠ i → st'.starts.getD p 0 = st.starts.getD p 0) ∧
    (i < n → ∃ f, st'.finishNodes.getD i none = some f ∧ f < st'.arena.length ∧
      (st'.arena.getD f default).time = st'.starts.getD i 0 + duration.getD i 0) := by
  obtain ⟨s0, node, fin, arena₁, arena₂, hm, hw, hq, hc, hst⟩ :=
    decodeStep_inv duration predecessors demands st st' i h
  have hlen0 : 0 < st.arena.length := List.length_pos.mpr hwf.ne
  have hs0lt : s0 < st.arena.length :=
    maxPredStart_lt hwf.finValid (predecessors.getD i []) 0 s0 hlen0 hm
  have hnodelt : node < st.arena.length := walkEnough_lt hwf.next_lt _ s0 node hs0lt hw
  have hnx : ∀ k, (st.arena.getD node default).next = some k → k < st.arena.length :=
    hwf.next_lt node hnodelt
  have hbr :
      (st.arena.length ≤ arena₁.length) ∧ (fin < arena₁.length) ∧
      ((arena₁.getD fin default).time
        = (st.arena.getD node default).time + duration.getD i 0) ∧
      ((arena₁.getD node default).time = (st.arena.getD node default).time) ∧
      (∀ j < st.arena.length,
        (arena₁.getD j default).time = (st.arena.getD j default).time) ∧
      (∀ j < arena₁.length, ∀ k,
        (arena₁.getD j default).next = some k → k < arena₁.length) := by
    cases hn : (st.arena.getD node default).next with
    | none =>
      rw [hn] at hq
      rw [show TimeCapacityNode.insert_after st.arena node
          ((st.arena.getD node default).time + duration.getD i 0)
          = (st.arena.length, (TimeCapacityNode.insert_after st.arena node
            ((st.arena.getD node default).time + duration.getD i 0)).2) from rfl] at hq
      injection hq with hfin har
      subst hfin
      subst har
      refine ⟨by rw [insert_after_length]; omega, by rw [insert_after_length]; omega,
        ?_, (insert_after_getD_self' st.arena node _ hnodelt).2.1, ?_, ?_⟩
      · rw [insert_after_getD_new st.arena node _ hnodelt hnx]
      · intro j hj
        by_cases hjn : j = node
        · subst hjn
          exact (insert_after_getD_self' st.arena j _ hnodelt).2.1
        · exact (insert_after_getD_other st.arena node _ j hjn hj).2.1
      · intro j hj k hk
        rw [insert_after_length] at hj ⊢
        by_cases hjn : j = node
        · subst hjn
          rw [(insert_after_getD_self' st.arena j _ hnodelt).1] at hk
          injection hk with hk
          omega
        · by_cases hjl : j = st.arena.length
          · subst hjl
            rw [insert_after_getD_new st.arena node _ hnodelt hnx] at hk
            dsimp only at hk
            rw [hn] at hk
            cases hk
          · have hjlt : j < st.arena.length := by omega
            rw [(insert_after_getD_other st.arena node _ j hjn hjlt).1] at hk
            exact lt_trans (hwf.next_lt j hjlt k hk) (by omega)
    | some nx =>
      rw [hn] at hq
      dsimp only at hq
      have hnxlt : nx < st.arena.length := hnx nx hn
      by_cases htime : (st.arena.getD nx default).time
          ≠ (st.arena.getD node default).time + duration.getD i 0
      · rw [if_pos htime] at hq
        rw [show TimeCapacityNode.insert_after st.arena node
            ((st.arena.getD node default).time + duration.getD i 0)
            = (st.arena.length, (TimeCapacityNode.insert_after st.arena node
              ((st.arena.getD node default).time + duration.getD i 0)).2) from rfl] at hq
        injection hq with hfin har
        subst hfin
        subst har
        refine ⟨by rw [insert_after_length]; omega, by rw [insert_after_length]; omega,
          ?_, (insert_after_getD_self' st.arena node _ hnodelt).2.1, ?_, ?_⟩
        · rw [insert_after_getD_new st.arena node _ hnodelt hnx]
        · intro j hj
          by_cases hjn : j = node
          · subst hjn
            exact (insert_after_getD_self' st.arena j _ hnodelt).2.1
          · exact (insert_after_getD_other st.arena node _ j hjn hj).2.1
        · intro j hj k hk
          rw [insert_after_length] at hj ⊢
          by_cases hjn : j = node
          · subst hjn
            rw [(insert_after_getD_self' st.arena j _ hnodelt).1] at hk
            injection hk with hk
            omega
          · by_cases hjl : j = st.arena.length
            · subst hjl
              rw [insert_after_getD_new st.arena node _ hnodelt hnx] at hk
              dsimp only at hk
              rw [hn] at hk
              injection hk with hk
              omega
            · have hjlt : j < st.arena.length := by omega
              rw [(insert_after_getD_other st.arena node _ j hjn hjlt).1] at hk
              exact lt_trans (hwf.next_lt j hjlt k hk) (by omega)
      · rw [if_neg htime] at hq
        injection hq with hfin har
        subst hfin
        subst har
        push_neg at htime
        exact ⟨le_refl _, hnxlt, htime, rfl, fun j hj => rfl, hwf.next_lt⟩
  obtain ⟨hg1, hg2, hg3, hg4, hg5, hg6⟩ := hbr
  obtain ⟨hcl, hct, hcn⟩ := consumeWalk_preserves _ node arena₁ arena₂ hc
  subst hst
  refine ⟨⟨?_, ?_, ?_, ?_, ?_⟩, ?_, ?_, ?_, ?_, ?_⟩
  · show arena₂ ≠ []
    rw [← List.length_pos, hcl]
    omega
  · intro j hj k hk
    show k < arena₂.length
    rw [hcl] at hj ⊢
    rw [hcn j] at hk
    exact hg6 j hj k hk
  · intro p f hf
    show f < arena₂.length
    dsimp only at hf
    rw [hcl]
    by_cases hp : p = i
    · subst hp
      by_cases hil : p < st.finishNodes.length
      · rw [getD_set_self _ _ _ _ hil] at hf
        injection hf with hf
        exact hf ▸ hg2
      · rw [List.set_eq_of_length_le (by omega)] at hf
        exact lt_of_lt_of_le (hwf.finValid p f hf) hg1
    · rw [getD_set_ne _ _ _ _ _ (fun he => hp he.symm)] at hf
      exact lt_of_lt_of_le (hwf.finValid p f hf) hg1
  · show (st.starts.set i _).length = n
    rw [List.length_set]
    exact hwf.startsLen
  · show (st.finishNodes.set i _).length = n
    rw [List.length_set]
    exact hwf.finLen
  · show st.arena.length ≤ arena₂.length
    rw [hcl]
    exact hg1
  · intro j hj
    show (arena₂.getD j default).time = (st.arena.getD j default).time
    rw [hct j]
    exact hg5 j hj
  · intro p hp
    exact getD_set_ne _ _ _ _ _ (fun he => hp he.symm)
  · intro p hp
    exact getD_set_ne _ _ _ _ _ (fun he => hp he.symm)
  · intro hin
    have hisl : i < st.starts.length := by rw [hwf.startsLen]; exact hin
    have hifl : i < st.finishNodes.length := by rw [hwf.finLen]; exact hin
    refine ⟨fin, ?_, ?_, ?_⟩
    · exact getD_set_self _ _ _ _ hifl
    · show fin < arena₂.length
      rw [hcl]
      exact hg2
    · show (arena₂.getD fin default).time
        = (st.starts.set i (arena₂.getD node default).time).getD i 0 + duration.getD i 0
      rw [hct fin, hg3, getD_set_self _ _ _ _ hisl, hct node, hg4]

/-- The initial decoder state is pointer-valid. -/
theorem decodeInit_wf (duration : List ℕ) (capacity : List ℤ) :
    WfPointers duration.length
      { arena := [⟨0, capacity, none, none⟩],
        starts := List.replicate duration.length 0,
        finishNodes := (List.replicate duration.length (none : Option ℕ)).set 0 (some 0) } := by
  refine ⟨by simp, ?_, ?_, by simp, by simp⟩
  · intro j hj k hk
    simp only [List.length_singleton] at hj
    have hj0 : j = 0 := by omega
    subst hj0
    simp at hk
  · intro p f hf
    show f < 1
    by_cases h0 : 0 < duration.length
    · by_cases hp : p = 0
      · subst hp
        rw [getD_set_self _ _ _ _ (by rw [List.length_replicate]; exact h0)] at hf
        injection hf with hf
        omega
      · rw [getD_set_ne _ _ _ _ _ (fun hx => hp hx.symm)] at hf
        rw [List.getD_eq_getElem?_getD, List.getElem?_replicate] at hf
        revert hf
        split <;> simp
    · rw [List.set_eq_of_length_le (by rw [List.length_replicate]; omega)] at hf
      rw [List.getD_eq_getElem?_getD, List.getElem?_replicate] at hf
      revert hf
      split <;> simp

/-- Accumulated shape of the decoder loop: after a successful run over a
duplicate-free suffix, every activity of the suffix has a recorded finish node
whose time is exactly its recorded start plus its duration. -/
theorem decodeLoop_shape (duration : List ℕ) (predecessors : List (List ℕ))
    (demands : List (List ℤ)) (n : ℕ) :
    ∀ (rest : List ℕ) (st st' : DecodeState),
      WfPointers n st →
      rest.Nodup →
      (∀ i ∈ rest, i < n) →
      rest.foldlM (decodeStep duration predecessors demands) st = .ok st' →
      WfPointers n st' ∧
      st.arena.length ≤ st'.arena.length ∧
      (∀ j < st.arena.length,
        (st'.arena.getD j default).time = (st.arena.getD j default).time) ∧
      (∀ p, p ∉ rest → st'.finishNodes.getD p none = st.finishNodes.getD p none ∧
        st'.starts.getD p 0 = st.starts.getD p 0) ∧
      (∀ i ∈ rest, ∃ f, st'.finishNodes.getD i none = some f ∧ f < st'.arena.length ∧
        (st'.arena.getD f default).time = st'.starts.getD i 0 + duration.getD i 0) := by
  intro rest
  induction rest with
  | nil =>
    intro st st' hwf _ _ h
    rw [List.foldlM_nil] at h
    injection h with h
    subst h
    exact ⟨hwf, le_refl _, fun _ _ => rfl, fun _ _ => ⟨rfl, rfl⟩, by simp⟩
  | cons i rest ih =>
    intro st st' hwf hnd hlt h
    rw [List.foldlM_cons] at h
    cases hstep : decodeStep duration predecessors demands st i with
    | error e =>
      rw [hstep] at h
      exact absurd h (by simp [Bind.bind, Except.bind])
    | ok st₁ =>
      rw [hstep, exc_ok_bind] at h
      obtain ⟨hwf₁, hlen₁, htime₁, hfin₁, hstarts₁, hnew₁⟩ :=
        decodeStep_shape duration predecessors demands n st st₁ i hwf hstep
      obtain ⟨hwf', hlen', htime', hpres', hprop'⟩ := ih st₁ st' hwf₁
        (List.nodup_cons.mp hnd).2 (fun j hj => hlt j (.tail _ hj)) h
      refine ⟨hwf', le_trans hlen₁ hlen', ?_, ?_, ?_⟩
      · intro j hj
        rw [htime' j (lt_of_lt_of_le hj hlen₁), htime₁ j hj]
      · intro p hp
        have hpi : p ≠ i := fun he => hp (he ▸ List.mem_cons_self i rest)
        have hpr : p ∉ rest := fun hm => hp (.tail _ hm)
        obtain ⟨e1, e2⟩ := hpres' p hpr
        exact ⟨by rw [e1, hfin₁ p hpi], by rw [e2, hstarts₁ p hpi]⟩
      · intro j hj
        rcases List.mem_cons.mp hj with rfl | hj
        · obtain ⟨f, hf1, hf2, hf3⟩ := hnew₁ (hlt j (.head _))
          obtain ⟨e1, e2⟩ := hpres' j (List.nodup_cons.mp hnd).1
          refine ⟨f, by rw [e1]; exact hf1, lt_of_lt_of_le hf2 hlen', ?_⟩
          rw [htime' f hf2, e2, hf3]
        · exact hprop' j hj

/-- C9: within any successful `decode` run over a duplicate-free activity list
of network activities, every processed activity `i` ends with a recorded
finish breakpoint satisfying `finish_nodes[i].time = starts[i] + duration[i]`,
so the predecessor lookup of step 1 always reads each decoded predecessor's
exact finish time. -/
theorem c9_finish_node_time (alist duration : List ℕ) (predecessors : List (List ℕ))
    (demands : List (List ℤ)) (capacity : List ℤ) (st : DecodeState)
    (hnodup : alist.Nodup)
    (hlt : ∀ i ∈ alist, i < duration.length)
    (hrun : decodeRun alist duration predecessors demands capacity = .ok st) :
    ∀ i ∈ alist, ∃ f, st.finishNodes.getD i none = some f ∧
      (st.arena.getD f default).time = st.starts.getD i 0 + duration.getD i 0 := by
  unfold decodeRun at hrun
  obtain ⟨-, -, -, -, hprop⟩ := decodeLoop_shape duration predecessors demands duration.length
    alist _ st (decodeInit_wf duration capacity) hnodup hlt hrun
  intro i hi
  obtain ⟨f, h1, _, h3⟩ := hprop i hi
  exact ⟨f, h1, h3⟩

/-- C1: the decoded schedule is NOT always resource-feasible.  On the
topological order `[0,1,2]` of three unordered activities with single-resource
demands `[1],[2],[1]`, each componentwise `≤ capacity [2]`, `decode` returns
start times `[0,2,0]`; re-simulating that schedule, at time instant `2` the
activities `1` and `2` are both active and resource `0` carries total demand
`3 > 2`. -/
theorem c1_decode_resource_infeasible :
    ActivityListDecoder.decode [0,1,2] [2,2,4] [[],[],[]] [[1],[2],[1]] [2]
      = .ok [0,2,0] ∧
    usageAt [0,2,0] [2,2,4] [[1],[2],[1]] 2 0 = 3 ∧
    ¬ usageAt [0,2,0] [2,2,4] [[1],[2],[1]] 2 0 ≤ ([(2:ℤ)]).getD 0 0 := by
  refine ⟨rfl, by decide, by decide⟩

/-- C2: the decoded start times do NOT always respect precedence.  On the
topological order `[0,1,2,3]` (predecessors `1 ← 0` and `3 ← 2`, demands all
componentwise `≤ capacity [3,1]`), `decode` returns `[0,3,0,3]`: activity `3`
starts at `3` although its predecessor `2` runs on `[0,10)`. -/
theorem c2_decode_precedence_violated :
    ActivityListDecoder.decode [0,1,2,3] [3,7,10,1] [[],[0],[],[2]]
        [[1,1],[3,0],[1,0],[0,1]] [3,1] = .ok [0,3,0,3] ∧
    ¬ ([0,3,0,3].getD 2 0 + [3,7,10,1].getD 2 0 ≤ [0,3,0,3].getD 3 0) := by
  refine ⟨rfl, by decide⟩

/-- C3: the breakpoint times are NOT always strictly increasing along the
profile.  On the run of the C1 instance, after the third activity is processed
the `next`-chain of breakpoints carries the times `[0,4,2,4]` — out of order
and with a duplicate — because `decode` inserts the finish breakpoint directly
after the start breakpoint even when later breakpoints exist before the finish
time. -/
theorem c3_profile_times_not_increasing :
    (decodeRun [0,1,2] [2,2,4] [[],[],[]] [[1],[2],[1]] [2]).map
        (fun st => chainTimes st.arena (st.arena.length + 1) 0) = .ok [0,4,2,4] ∧
    ¬ List.Sorted (· < ·) [0,4,2,4] := by
  refine ⟨rfl, ?_⟩
  intro h
  have := List.rel_of_sorted_cons (List.sorted_cons.mp h).2 2 (by simp)
  omega

/-- C7, counterexample: on the chain `0 → 1 → 2` with durations `[0,1,5]`
(an acyclic, connected network with unique source `0` and sink `2`, all
durations non-negative), `calculate_critical_times` returns
`est = [0,0,1]` and `lst = [-5,-4,1]`, so `est[1] ≤ lst[1]` fails.
The recursion-depth fuel `3 = n` fully evaluates both passes here. -/
theorem c7_counterexample :
    calculate_critical_times 3 [0,1,5] [[],[0],[1]] [] = ([0,0,1], [-5,-4,1]) ∧
    ¬ ((calculate_critical_times 3 [0,1,5] [[],[0],[1]] []).1.getD 1 0 ≤
       (calculate_critical_times 3 [0,1,5] [[],[0],[1]] []).2.getD 1 0) := by
  refine ⟨by decide, by decide⟩

/-- Specification of the fold inside `pyMinKey`: the result either is the
initial best `b` (when nothing in `l` beats it strictly) and `rule b` is a
lower bound of `l`, or it is the element at the first position of `l` whose
key is strictly below `rule b` and below every other key, with all earlier
elements strictly worse. -/
theorem pyMinFold_spec (rule : ℕ → ℤ) :
    ∀ (l : List ℕ) (b : ℕ),
      (l.foldl (fun b y => if rule y < rule b then y else b) b = b ∧
        ∀ y ∈ l, rule b ≤ rule y) ∨
      (∃ k, k < l.length ∧
        l.getD k 0 = l.foldl (fun b y => if rule y < rule b then y else b) b ∧
        rule (l.foldl (fun b y => if rule y < rule b then y else b) b) < rule b ∧
        (∀ y ∈ l, rule (l.foldl (fun b y => if rule y < rule b then y else b) b) ≤ rule y) ∧
        ∀ j, j < k →
          rule (l.foldl (fun b y => if rule y < rule b then y else b) b)
            < rule (l.getD j 0)) := by
  intro l
  induction l with
  | nil => intro b; exact .inl ⟨rfl, by simp⟩
  | cons y ys ih =>
    intro b
    by_cases hy : rule y < rule b
    · simp only [List.foldl_cons, if_pos hy]
      rcases ih y with ⟨hr, hall⟩ | ⟨k, hk, hget, hlt, hall, hfirst⟩
      · refine .inr ⟨0, by simp, by simpa using hr.symm, by rw [hr]; exact hy, ?_, ?_⟩
        · intro z hz
          rw [hr]
          rcases List.mem_cons.mp hz with rfl | hz
          · exact le_refl _
          · exact hall _ hz
        · intro j hj; omega
      · refine .inr ⟨k + 1, by simp only [List.length_cons]; omega,
          by simpa using hget, lt_trans hlt hy, ?_, ?_⟩
        · intro z hz
          rcases List.mem_cons.mp hz with rfl | hz
          · exact le_of_lt hlt
          · exact hall _ hz
        · intro j hj
          cases j with
          | zero => simpa using hlt
          | succ j' => simpa using hfirst j' (by omega)
    · simp only [List.foldl_cons, if_neg hy]
      push_neg at hy
      rcases ih b with ⟨hr, hall⟩ | ⟨k, hk, hget, hlt, hall, hfirst⟩
      · refine .inl ⟨hr, ?_⟩
        intro z hz
        rcases List.mem_cons.mp hz with rfl | hz
        · exact hy
        · exact hall _ hz
      · refine .inr ⟨k + 1, by simp only [List.length_cons]; omega,
          by simpa using hget, hlt, ?_, ?_⟩
        · intro z hz
          rcases List.mem_cons.mp hz with rfl | hz
          · exact le_trans (le_of_lt hlt) hy
          · exact hall _ hz
        · intro j hj
          cases j with
          | zero => simpa using lt_of_lt_of_le hlt hy
          | succ j' => simpa using hfirst j' (by omega)

/-- C8: `min_rule` drives `_gen` with Python's `min(ready, key=rule)`, which at
every step selects a member of the current ready list whose key is minimal and,
among ties, the one occurring first in the ready list (the ready list is kept
in the order in which activities became ready: picked elements are removed and
newly ready ones appended at the end).  The whole selection is a pure function,
hence deterministic. -/
theorem c8_min_rule_selection (predecessors : List (List ℕ)) (rule : ℕ → ℤ)
    (xs : List ℕ) (hne : xs ≠ []) :
    ActivityListSampler.min_rule predecessors rule
        = ActivityListSampler.gen predecessors (pyMinKey rule) ∧
    pyMinKey rule xs ∈ xs ∧
    (∀ y ∈ xs, rule (pyMinKey rule xs) ≤ rule y) ∧
    ∃ k, k < xs.length ∧ xs.getD k 0 = pyMinKey rule xs ∧
      ∀ j, j < k → rule (pyMinKey rule xs) < rule (xs.getD j 0) := by
  match xs, hne with
  | x :: xs, _ =>
    refine ⟨rfl, ?_⟩
    have hpy : pyMinKey rule (x :: xs)
        = xs.foldl (fun b y => if rule y < rule b then y else b) x := rfl
    rw [hpy]
    rcases pyMinFold_spec rule xs x with ⟨hr, hall⟩ | ⟨k, hk, hget, hlt, hall, hfirst⟩
    · rw [hr]
      refine ⟨.head _, ?_, 0, by simp, by simp, ?_⟩
      · intro y hy
        rcases List.mem_cons.mp hy with rfl | hy
        · exact le_refl _
        · exact hall _ hy
      · intro j hj; omega
    · refine ⟨?_, ?_, k + 1, by simp only [List.length_cons]; omega,
        by simpa using hget, ?_⟩
      · refine List.mem_cons_of_mem _ ?_
        rw [List.getD_eq_getElem xs 0 hk] at hget
        exact hget ▸ List.getElem_mem hk
      · intro y hy
        rcases List.mem_cons.mp hy with rfl | hy
        · exact le_of_lt hlt
        · exact hall _ hy
      · intro j hj
        cases j with
        | zero => simpa using hlt
        | succ j' => simpa using hfirst j' (by omega)

/-- Witness for C8 at the concrete ready list `[2,1,3]` with the identity key:
the selection is `1`, sitting at position `1`. -/
theorem c8_min_rule_selection_witness :
    (ActivityListSampler.min_rule [[],[0]] idKey
        = ActivityListSampler.gen [[],[0]] (pyMinKey idKey)) ∧
    pyMinKey idKey [2,1,3] ∈ [2,1,3] ∧
    (∀ y ∈ [2,1,3], idKey (pyMinKey idKey [2,1,3]) ≤ idKey y) ∧
    ∃ k, k < [2,1,3].length ∧ [2,1,3].getD k 0 = pyMinKey idKey [2,1,3] ∧
      ∀ j, j < k → idKey (pyMinKey idKey [2,1,3]) < idKey ([2,1,3].getD j 0) :=
  c8_min_rule_selection [[],[0]] idKey [2,1,3] (by decide)

/-- Witness for C9 at the concrete decode run `alist=[0,1]`, `duration=[0,5]`,
`predecessors=[[],[0]]`, `demands=[[1],[1]]`, `capacity=[1]`: the run succeeds
with the state below, and activity 1's finish node sits at time `0 + 5`. -/
theorem c9_finish_node_time_witness :
    ∃ f, (DecodeState.mk
        [⟨0, [0], some 1, none⟩, ⟨0, [0], some 2, some 0⟩, ⟨5, [1], none, some 1⟩]
        [0, 0] [some 1, some 2]).finishNodes.getD 1 none = some f ∧
      ((DecodeState.mk
        [⟨0, [0], some 1, none⟩, ⟨0, [0], some 2, some 0⟩, ⟨5, [1], none, some 1⟩]
        [0, 0] [some 1, some 2]).arena.getD f default).time
        = (DecodeState.mk
        [⟨0, [0], some 1, none⟩, ⟨0, [0], some 2, some 0⟩, ⟨5, [1], none, some 1⟩]
        [0, 0] [some 1, some 2]).starts.getD 1 0 + [0, 5].getD 1 0 :=
  c9_finish_node_time [0, 1] [0, 5] [[], [0]] [[1], [1]] [1]
    (DecodeState.mk
      [⟨0, [0], some 1, none⟩, ⟨0, [0], some 2, some 0⟩, ⟨5, [1], none, some 1⟩]
      [0, 0] [some 1, some 2])
    (by decide) (by decide) (by rfl) 1 (by decide)

theorem nodup_lt_length_le (l : List ℕ) (n : ℕ) (hnd : l.Nodup) (hlt : ∀ x ∈ l, x < n) :
    l.length ≤ n := by
  have hsub : l.toFinset ⊆ Finset.range n := fun x hx =>
    Finset.mem_range.mpr (hlt x (List.mem_toFinset.mp hx))
  have hc := Finset.card_le_card hsub
  rw [List.toFinset_card_of_nodup hnd, Finset.card_range] at hc
  exact hc

theorem sdiff_erase_union (s t : Finset ℕ) (i : ℕ) :
    (s \ t).erase i = s \ (t ∪ {i}) := by
  ext x
  simp only [Finset.mem_erase, Finset.mem_sdiff, Finset.mem_union, Finset.mem_singleton]
  tauto

theorem all_mem_of_closed (n : ℕ) (predecessors : List (List ℕ)) (res : List ℕ)
    (rank : ℕ → ℕ)
    (hrank : ∀ j < n, ∀ p ∈ predecessors.getD j [], rank p < rank j)
    (hvalid : ∀ j < n, ∀ p ∈ predecessors.getD j [], p < n)
    (hclosed : ∀ j < n, (∀ p ∈ predecessors.getD j [], p ∈ res) → j ∈ res) :
    ∀ j < n, j ∈ res := by
  have key : ∀ r, ∀ j, j < n → rank j < r → j ∈ res := by
    intro r
    induction r with
    | zero => intro j _ hr; omega
    | succ r ih =>
      intro j hjn hr
      refine hclosed j hjn fun p hp =>
        ih p (hvalid j hjn p hp) ?_
      have := hrank j hjn p hp
      omega
  exact fun j hj => key (rank j + 1) j hj (by omega)

theorem mem_successors (predecessors : List (List ℕ)) (i s : ℕ)
    (hi : i < predecessors.length) :
    s ∈ (successors_by_predecessors predecessors).getD i []
      ↔ s < predecessors.length ∧ i ∈ predecessors.getD s [] := by
  have hrw : (successors_by_predecessors predecessors).getD i []
      = (List.range predecessors.length).filter
          (fun j => decide (i ∈ predecessors.getD j [])) := by
    unfold successors_by_predecessors
    rw [List.getD_eq_getElem?_getD, List.getElem?_map, List.getElem?_range hi]
    rfl
  rw [hrw]
  simp [List.mem_filter, List.mem_range]

theorem succ_getD_nodup (predecessors : List (List ℕ)) (i : ℕ) :
    ((successors_by_predecessors predecessors).getD i []).Nodup := by
  by_cases hi : i < predecessors.length
  · have hrw : (successors_by_predecessors predecessors).getD i []
        = (List.range predecessors.length).filter
            (fun j => decide (i ∈ predecessors.getD j [])) := by
      unfold successors_by_predecessors
      rw [List.getD_eq_getElem?_getD, List.getElem?_map, List.getElem?_range hi]
      rfl
    rw [hrw]
    exact (List.nodup_range _).filter _
  · have hrw : (successors_by_predecessors predecessors).getD i [] = [] := by
      unfold successors_by_predecessors
      rw [List.getD_eq_getElem?_getD, List.getElem?_eq_none (by simpa using le_of_not_lt hi)]
      rfl
    rw [hrw]
    exact List.nodup_nil

theorem genUpdate_spec (i : ℕ) (ss : List ℕ) :
    ∀ (rem : List (Finset ℕ)) (ready : List ℕ),
      ss.Nodup → (∀ s ∈ ss, s < rem.length) →
      (genUpdate i ss rem ready).1.length = rem.length ∧
      (∀ j, (genUpdate i ss rem ready).1.getD j ∅ =
        if j ∈ ss then (rem.getD j ∅).erase i else rem.getD j ∅) ∧
      (genUpdate i ss rem ready).2
        = ready ++ ss.filter (fun s => decide ((rem.getD s ∅).erase i = ∅)) := by
  induction ss with
  | nil =>
    intro rem ready _ _
    exact ⟨rfl, fun j => by simp [genUpdate], by simp [genUpdate]⟩
  | cons s ss ih =>
    intro rem ready hnd hlt
    have hs : s < rem.length := hlt s (List.mem_cons_self s ss)
    have hnd' : ss.Nodup := hnd.of_cons
    have hsnot : s ∉ ss := (List.nodup_cons.mp hnd).1
    have hlen₁ : (rem.set s ((rem.getD s ∅).erase i)).length = rem.length := by
      simp
    have hget_s : (rem.set s ((rem.getD s ∅).erase i)).getD s ∅
        = (rem.getD s ∅).erase i := getD_set_self rem s _ ∅ hs
    have hget_ne : ∀ j, j ≠ s → (rem.set s ((rem.getD s ∅).erase i)).getD j ∅
        = rem.getD j ∅ := fun j hj => getD_set_ne rem s j _ ∅ (fun h => hj h.symm)
    have hlt' : ∀ x ∈ ss, x < (rem.set s ((rem.getD s ∅).erase i)).length :=
      fun x hx => hlen₁ ▸ hlt x (List.mem_cons_of_mem s hx)
    have hfilter : ss.filter
          (fun x => decide (((rem.set s ((rem.getD s ∅).erase i)).getD x ∅).erase i = ∅))
        = ss.filter (fun x => decide ((rem.getD x ∅).erase i = ∅)) := by
      apply List.filter_congr
      intro x hx
      rw [hget_ne x (fun h => hsnot (h ▸ hx))]
    by_cases hcond : (rem.set s ((rem.getD s ∅).erase i)).getD s ∅ = ∅
    · have hstep : genUpdate i (s :: ss) rem ready
          = genUpdate i ss (rem.set s ((rem.getD s ∅).erase i)) (ready ++ [s]) := by
        show (if (rem.set s ((rem.getD s ∅).erase i)).getD s ∅ = ∅ then _ else _) = _
        rw [if_pos hcond]
      obtain ⟨h1, h2, h3⟩ := ih (rem.set s ((rem.getD s ∅).erase i)) (ready ++ [s]) hnd' hlt'
      rw [hstep]
      refine ⟨h1.trans hlen₁, fun j => ?_, ?_⟩
      · rw [h2 j]
        by_cases hjs : j = s
        · subst hjs
          rw [if_neg hsnot, if_pos (List.mem_cons_self j ss), hget_s]
        · rw [hget_ne j hjs]
          by_cases hjss : j ∈ ss
          · rw [if_pos hjss, if_pos (List.mem_cons_of_mem s hjss)]
          · rw [if_neg hjss, if_neg (by simp [hjs, hjss])]
      · rw [h3, hfilter]
        have hc2 : (rem.getD s ∅).erase i = ∅ := hget_s ▸ hcond
        simp only [List.getD_eq_getElem?_getD] at hc2
        simp [List.filter_cons, hc2]
    · have hstep : genUpdate i (s :: ss) rem ready
          = genUpdate i ss (rem.set s ((rem.getD s ∅).erase i)) ready := by
        show (if (rem.set s ((rem.getD s ∅).erase i)).getD s ∅ = ∅ then _ else _) = _
        rw [if_neg hcond]
      obtain ⟨h1, h2, h3⟩ := ih (rem.set s ((rem.getD s ∅).erase i)) ready hnd' hlt'
      rw [hstep]
      refine ⟨h1.trans hlen₁, fun j => ?_, ?_⟩
      · rw [h2 j]
        by_cases hjs : j = s
        · subst hjs
          rw [if_neg hsnot, if_pos (List.mem_cons_self j ss), hget_s]
        · rw [hget_ne j hjs]
          by_cases hjss : j ∈ ss
          · rw [if_pos hjss, if_pos (List.mem_cons_of_mem s hjss)]
          · rw [if_neg hjss, if_neg (by simp [hjs, hjss])]
      · rw [h3, hfilter]
        have hc2 : ¬ (rem.getD s ∅).erase i = ∅ := fun h => hcond (hget_s.trans h)
        simp only [List.getD_eq_getElem?_getD] at hc2
        simp [List.filter_cons, hc2]

theorem genInv_step (n : ℕ) (predecessors : List (List ℕ)) (rem : List (Finset ℕ))
    (ready res : List ℕ) (i : ℕ)
    (hn : predecessors.length = n)
    (hinv : GenInv n predecessors rem ready res)
    (hi : i ∈ ready) :
    GenInv n predecessors
      (genUpdate i ((successors_by_predecessors predecessors).getD i []) rem (ready.erase i)).1
      (genUpdate i ((successors_by_predecessors predecessors).getD i []) rem (ready.erase i)).2
      (res ++ [i]) := by
  have hin : i < n := hinv.readyLt i hi
  obtain ⟨hires, hpredi⟩ := (hinv.readyIff i hin).mp hi
  have hSmem : ∀ s, s ∈ (successors_by_predecessors predecessors).getD i []
      ↔ s < n ∧ i ∈ predecessors.getD s [] := by
    intro s
    rw [mem_successors predecessors i s (by omega), hn]
  have hSnodup := succ_getD_nodup predecessors i
  have hSlt : ∀ s ∈ (successors_by_predecessors predecessors).getD i [], s < rem.length :=
    fun s hs => hinv.remLen ▸ ((hSmem s).mp hs).1
  obtain ⟨hulen, huget, huready⟩ :=
    genUpdate_spec i ((successors_by_predecessors predecessors).getD i [])
      rem (ready.erase i) hSnodup hSlt
  have resClosed : ∀ j ∈ res, ∀ p ∈ predecessors.getD j [], p ∈ res := by
    intro j hj p hp
    obtain ⟨k, hk, hget⟩ := List.mem_iff_getElem.mp hj
    have hkd : res.getD k 0 = j := by
      rw [List.getD_eq_getElem?_getD, List.getElem?_eq_getElem hk, Option.getD_some, hget]
    have := hinv.topo k hk p (by rw [hkd]; exact hp)
    exact List.mem_of_mem_take this
  have hii : i ∉ predecessors.getD i [] := fun hmem => hires (hpredi i hmem)
  have hresmem : ∀ x, x ∈ res ++ [i] ↔ x ∈ res ∨ x = i := by
    intro x; simp [List.mem_append]
  have hresfin : (res ++ [i]).toFinset = res.toFinset ∪ {i} := by
    ext x
    simp [List.mem_append]
  constructor
  · exact hulen.trans hinv.remLen
  · rw [List.nodup_append]
    refine ⟨hinv.resNodup, List.nodup_singleton i, ?_⟩
    intro a ha hb
    rw [List.mem_singleton] at hb
    subst hb; exact hires ha
  · intro x hx
    rcases (hresmem x).mp hx with h | h
    · exact hinv.resLt x h
    · subst h; exact hin
  · rw [huready, List.nodup_append]
    refine ⟨hinv.readyNodup.erase i, hSnodup.filter _, ?_⟩
    intro a ha hb
    have ha' : a ∈ ready := List.mem_of_mem_erase ha
    have hb' : a ∈ (successors_by_predecessors predecessors).getD i [] :=
      List.mem_of_mem_filter hb
    have han : a < n := hinv.readyLt a ha'
    exact hires (((hinv.readyIff a han).mp ha').2 i ((hSmem a).mp hb').2)
  · intro x hx
    rw [huready, List.mem_append] at hx
    rcases hx with h | h
    · exact hinv.readyLt x (List.mem_of_mem_erase h)
    · exact ((hSmem x).mp (List.mem_of_mem_filter h)).1
  · intro j hj
    rw [huget j, hresfin]
    by_cases hjS : j ∈ (successors_by_predecessors predecessors).getD i []
    · rw [if_pos hjS, hinv.remEq j hj, sdiff_erase_union]
    · rw [if_neg hjS, hinv.remEq j hj]
      have hinotpred : i ∉ predecessors.getD j [] := fun hmem =>
        hjS ((hSmem j).mpr ⟨hj, hmem⟩)
      rw [← sdiff_erase_union]
      exact (Finset.erase_eq_of_not_mem
        (fun hmem => hinotpred (List.mem_toFinset.mp (Finset.mem_sdiff.mp hmem).1))).symm
  · intro j hj
    rw [huready, List.mem_append]
    constructor
    · rintro (h | h)
      · obtain ⟨hji, hjr⟩ := hinv.readyNodup.mem_erase_iff.mp h
        obtain ⟨hjres, hjsub⟩ := (hinv.readyIff j hj).mp hjr
        refine ⟨?_, fun p hp => (hresmem p).mpr (Or.inl (hjsub p hp))⟩
        intro hmem
        rcases (hresmem j).mp hmem with h' | h'
        · exact hjres h'
        · exact hji h'
      · rw [List.mem_filter] at h
        obtain ⟨hjS, hcond⟩ := h
        obtain ⟨hjn, hipred⟩ := (hSmem j).mp hjS
        rw [decide_eq_true_eq] at hcond
        rw [hinv.remEq j hj, sdiff_erase_union] at hcond
        have hsub := Finset.sdiff_eq_empty_iff_subset.mp hcond
        refine ⟨?_, fun p hp => ?_⟩
        · intro hmem
          rcases (hresmem j).mp hmem with h' | h'
          · exact hires (resClosed j h' i hipred)
          · exact hii (h' ▸ hipred)
        · have hq := hsub (List.mem_toFinset.mpr hp)
          rw [Finset.mem_union, Finset.mem_singleton] at hq
          rcases hq with h' | h'
          · exact (hresmem p).mpr (Or.inl (List.mem_toFinset.mp h'))
          · exact (hresmem p).mpr (Or.inr h')
    · rintro ⟨hnres, hsub⟩
      have hjres : j ∉ res := fun h => hnres ((hresmem j).mpr (Or.inl h))
      have hji : j ≠ i := fun h => hnres ((hresmem j).mpr (Or.inr h))
      by_cases hall : ∀ p ∈ predecessors.getD j [], p ∈ res
      · exact Or.inl (hinv.readyNodup.mem_erase_iff.mpr
          ⟨hji, (hinv.readyIff j hj).mpr ⟨hjres, hall⟩⟩)
      · push_neg at hall
        obtain ⟨p, hp, hpres⟩ := hall
        have hpi : p = i := by
          rcases (hresmem p).mp (hsub p hp) with h' | h'
          · exact absurd h' hpres
          · exact h'
        subst hpi
        refine Or.inr (List.mem_filter.mpr ⟨(hSmem j).mpr ⟨hj, hp⟩, ?_⟩)
        rw [decide_eq_true_eq, hinv.remEq j hj, sdiff_erase_union,
          Finset.sdiff_eq_empty_iff_subset]
        intro q hq
        have hq2 := hsub q (List.mem_toFinset.mp hq)
        rw [Finset.mem_union, Finset.mem_singleton]
        rcases (hresmem q).mp hq2 with h' | h'
        · exact Or.inl (List.mem_toFinset.mpr h')
        · exact Or.inr h'
  · intro k hk p hp
    have hk' : k < res.length + 1 := by simpa using hk
    by_cases hkres : k < res.length
    · rw [getD_concat_lt res i 0 k hkres] at hp
      rw [List.take_append_of_le_length (le_of_lt hkres)]
      exact hinv.topo k hkres p hp
    · have hkeq : k = res.length := by omega
      subst hkeq
      rw [getD_concat_len] at hp
      rw [List.take_append_of_le_length (le_refl _), List.take_length]
      exact hpredi p hp

theorem genLoop_spec (n : ℕ) (predecessors : List (List ℕ)) (pick : List ℕ → ℕ)
    (rank : ℕ → ℕ)
    (hn : predecessors.length = n)
    (hpick : ∀ xs, xs ≠ [] → pick xs ∈ xs)
    (hvalid : ∀ j < n, ∀ p ∈ predecessors.getD j [], p < n)
    (hrank : ∀ j < n, ∀ p ∈ predecessors.getD j [], rank p < rank j) :
    ∀ (fuel : ℕ) (rem : List (Finset ℕ)) (ready res : List ℕ),
      GenInv n predecessors rem ready res →
      n + 1 ≤ fuel + res.length →
      (genLoop (successors_by_predecessors predecessors) pick fuel rem ready res).Nodup ∧
      (∀ x, x ∈ genLoop (successors_by_predecessors predecessors) pick fuel rem ready res
          ↔ x < n) ∧
      TopoList predecessors
        (genLoop (successors_by_predecessors predecessors) pick fuel rem ready res) := by
  intro fuel
  induction fuel with
  | zero =>
    intro rem ready res hinv hfuel
    exfalso
    have := nodup_lt_length_le res n hinv.resNodup hinv.resLt
    simp only [Nat.zero_add] at hfuel
    omega
  | succ fuel ih =>
    intro rem ready res hinv hfuel
    cases ready with
    | nil =>
      have hclosed : ∀ j < n, (∀ p ∈ predecessors.getD j [], p ∈ res) → j ∈ res := by
        intro j hj hsub
        by_contra hjr
        exact (List.not_mem_nil j) ((hinv.readyIff j hj).mpr ⟨hjr, hsub⟩)
      have hall := all_mem_of_closed n predecessors res rank hrank hvalid hclosed
      exact ⟨hinv.resNodup, fun x => ⟨hinv.resLt x, fun hx => hall x hx⟩, hinv.topo⟩
    | cons a as =>
      have hi : pick (a :: as) ∈ a :: as := hpick (a :: as) (by simp)
      have hinv' := genInv_step n predecessors rem (a :: as) res (pick (a :: as)) hn hinv hi
      have hstep : genLoop (successors_by_predecessors predecessors) pick (fuel + 1)
            rem (a :: as) res
          = genLoop (successors_by_predecessors predecessors) pick fuel
              (genUpdate (pick (a :: as))
                ((successors_by_predecessors predecessors).getD (pick (a :: as)) [])
                rem ((a :: as).erase (pick (a :: as)))).1
              (genUpdate (pick (a :: as))
                ((successors_by_predecessors predecessors).getD (pick (a :: as)) [])
                rem ((a :: as).erase (pick (a :: as)))).2
              (res ++ [pick (a :: as)]) := rfl
      rw [hstep]
      refine ih _ _ _ hinv' ?_
      rw [List.length_append, List.length_cons, List.length_nil]
      omega

theorem genInv_init (n : ℕ) (predecessors : List (List ℕ)) (hn : predecessors.length = n) :
    GenInv n predecessors (predecessors.map (fun p => p.toFinset))
      ((List.range n).filter
        (fun i => decide ((predecessors.map (fun p => p.toFinset)).getD i ∅ = ∅)))
      [] := by
  have hmapget : ∀ j < n, (predecessors.map (fun p => p.toFinset)).getD j ∅
      = (predecessors.getD j []).toFinset := by
    intro j hj
    have hj' : j < predecessors.length := by omega
    rw [List.getD_eq_getElem?_getD, List.getElem?_map, List.getElem?_eq_getElem hj']
    rw [List.getD_eq_getElem?_getD, List.getElem?_eq_getElem hj']
    rfl
  constructor
  · rw [List.length_map, hn]
  · exact List.nodup_nil
  · intro x hx; exact absurd hx (List.not_mem_nil x)
  · exact (List.nodup_range n).filter _
  · intro x hx
    rw [List.mem_filter, List.mem_range] at hx
    exact hx.1
  · intro j hj
    rw [hmapget j hj]
    simp
  · intro j hj
    rw [List.mem_filter, List.mem_range]
    constructor
    · rintro ⟨-, hcond⟩
      rw [decide_eq_true_eq, hmapget j hj, List.toFinset_eq_empty_iff] at hcond
      refine ⟨List.not_mem_nil j, ?_⟩
      rw [hcond]
      intro p hp
      exact absurd hp (List.not_mem_nil p)
    · rintro ⟨-, hsub⟩
      refine ⟨hj, ?_⟩
      rw [decide_eq_true_eq, hmapget j hj, List.toFinset_eq_empty_iff]
      rw [List.eq_nil_iff_forall_not_mem]
      intro p hp
      exact List.not_mem_nil p (hsub p hp)
  · intro k hk
    exact absurd hk (by simp)

/-- **C5**: for every well-formed acyclic predecessor structure (each reference
in range, acyclicity witnessed by a rank function) and every selection policy
that picks a member of the ready list (`random.choice` as well as
`min(ready, key=rule)` satisfy this), the order emitted by
`ActivityListSampler._gen` contains each of the `n` activity indices exactly
once and places every activity after all of its predecessors. -/
theorem c5_sampler_topological (predecessors : List (List ℕ)) (pick : List ℕ → ℕ)
    (rank : ℕ → ℕ)
    (hpick : ∀ xs, xs ≠ [] → pick xs ∈ xs)
    (hvalid : ∀ j < predecessors.length, ∀ p ∈ predecessors.getD j [],
      p < predecessors.length)
    (hrank : ∀ j < predecessors.length, ∀ p ∈ predecessors.getD j [], rank p < rank j) :
    (ActivityListSampler.gen predecessors pick).Nodup ∧
    (∀ x, x ∈ ActivityListSampler.gen predecessors pick ↔ x < predecessors.length) ∧
    TopoList predecessors (ActivityListSampler.gen predecessors pick) := by
  have h := genLoop_spec predecessors.length predecessors pick rank rfl hpick hvalid hrank
    (predecessors.length + 1)
    (predecessors.map (fun p => p.toFinset))
    ((List.range predecessors.length).filter
      (fun i => decide ((predecessors.map (fun p => p.toFinset)).getD i ∅ = ∅)))
    [] (genInv_init predecessors.length predecessors rfl)
    (by simp)
  exact h

/-- Witness for C5 on the two-activity chain with the head-picking policy. -/
theorem c5_sampler_topological_witness :
    (ActivityListSampler.gen [[], [0]] (fun xs => xs.headD 0)).Nodup ∧
    (∀ x, x ∈ ActivityListSampler.gen [[], [0]] (fun xs => xs.headD 0)
        ↔ x < ([[], [0]] : List (List ℕ)).length) ∧
    TopoList [[], [0]] (ActivityListSampler.gen [[], [0]] (fun xs => xs.headD 0)) :=
  c5_sampler_topological [[], [0]] (fun xs => xs.headD 0) id
    (fun xs hxs => by
      cases xs with
      | nil => exact absurd rfl hxs
      | cons a l => exact List.mem_cons_self a l)
    (by decide) (by decide)


theorem foldl_max_ge_init (xs : List ℤ) : ∀ b : ℤ, b ≤ xs.foldl max b := by
  induction xs with
  | nil => intro b; exact le_refl b
  | cons y ys ih =>
    intro b
    exact le_trans (le_max_left b y) (ih (max b y))

theorem foldl_max_ge_mem (xs : List ℤ) : ∀ b : ℤ, ∀ x ∈ xs, x ≤ xs.foldl max b := by
  induction xs with
  | nil => intro b x hx; exact absurd hx (List.not_mem_nil x)
  | cons y ys ih =>
    intro b x hx
    rcases List.mem_cons.mp hx with h | h
    · subst h
      exact le_trans (le_max_right b x) (foldl_max_ge_init ys (max b x))
    · exact ih (max b y) x h

theorem foldl_max_le (xs : List ℤ) : ∀ b c : ℤ, b ≤ c → (∀ x ∈ xs, x ≤ c) →
    xs.foldl max b ≤ c := by
  induction xs with
  | nil => intro b c hb _; exact hb
  | cons y ys ih =>
    intro b c hb hall
    exact ih (max b y) c (max_le hb (hall y (List.mem_cons_self y ys)))
      (fun x hx => hall x (List.mem_cons_of_mem y hx))

theorem listMaxInt_ge_mem (l : List ℤ) (x : ℤ) (hx : x ∈ l) : x ≤ listMaxInt l := by
  cases l with
  | nil => exact absurd hx (List.not_mem_nil x)
  | cons a xs =>
    rcases List.mem_cons.mp hx with h | h
    · subst h; exact foldl_max_ge_init xs x
    · exact foldl_max_ge_mem xs a x h

theorem listMaxInt_le (l : List ℤ) (c : ℤ) (hne : l ≠ []) (hall : ∀ x ∈ l, x ≤ c) :
    listMaxInt l ≤ c := by
  cases l with
  | nil => exact absurd rfl hne
  | cons a xs =>
    exact foldl_max_le xs a c (hall a (List.mem_cons_self a xs))
      (fun x hx => hall x (List.mem_cons_of_mem a hx))

theorem foldl_min_le_init (xs : List ℤ) : ∀ b : ℤ, xs.foldl min b ≤ b := by
  induction xs with
  | nil => intro b; exact le_refl b
  | cons y ys ih =>
    intro b
    exact le_trans (ih (min b y)) (min_le_left b y)

theorem foldl_min_le_mem (xs : List ℤ) : ∀ b : ℤ, ∀ x ∈ xs, xs.foldl min b ≤ x := by
  induction xs with
  | nil => intro b x hx; exact absurd hx (List.not_mem_nil x)
  | cons y ys ih =>
    intro b x hx
    rcases List.mem_cons.mp hx with h | h
    · subst h
      exact le_trans (foldl_min_le_init ys (min b x)) (min_le_right b x)
    · exact ih (min b y) x h

theorem foldl_min_ge (xs : List ℤ) : ∀ b c : ℤ, c ≤ b → (∀ x ∈ xs, c ≤ x) →
    c ≤ xs.foldl min b := by
  induction xs with
  | nil => intro b c hb _; exact hb
  | cons y ys ih =>
    intro b c hb hall
    exact ih (min b y) c (le_min hb (hall y (List.mem_cons_self y ys)))
      (fun x hx => hall x (List.mem_cons_of_mem y hx))

theorem listMinInt_le_mem (l : List ℤ) (x : ℤ) (hx : x ∈ l) : listMinInt l ≤ x := by
  cases l with
  | nil => exact absurd hx (List.not_mem_nil x)
  | cons a xs =>
    rcases List.mem_cons.mp hx with h | h
    · subst h; exact foldl_min_le_init xs x
    · exact foldl_min_le_mem xs a x h

theorem listMinInt_ge (l : List ℤ) (c : ℤ) (hne : l ≠ []) (hall : ∀ x ∈ l, c ≤ x) :
    c ≤ listMinInt l := by
  cases l with
  | nil => exact absurd rfl hne
  | cons a xs =>
    exact foldl_min_ge xs a c (hall a (List.mem_cons_self a xs))
      (fun x hx => hall x (List.mem_cons_of_mem a hx))

theorem visits_trans (adj : List (List ℕ)) (i k j : ℕ)
    (h1 : Visits adj i k) (h2 : Visits adj k j) : Visits adj i j := by
  induction h1 with
  | refl => exact h2
  | step a p b hp _ ih => exact Visits.step a p j hp (ih h2)

theorem visits_all_from_sink (n : ℕ) (predecessors : List (List ℕ)) (rank : ℕ → ℕ)
    (hrank : ∀ j < n, ∀ p ∈ predecessors.getD j [], rank p < rank j)
    (hrankBound : ∀ j < n, rank j < n)
    (hsink : ∀ j < n, j ≠ n - 1 → ∃ k < n, j ∈ predecessors.getD k []) :
    ∀ j < n, Visits predecessors (n - 1) j := by
  have key : ∀ c, ∀ j, j < n → n - rank j ≤ c → Visits predecessors (n - 1) j := by
    intro c
    induction c with
    | zero =>
      intro j hj hc
      exact absurd (hrankBound j hj) (by omega)
    | succ c ih =>
      intro j hj hc
      by_cases hjs : j = n - 1
      · subst hjs; exact Visits.refl _
      · obtain ⟨k, hk, hmem⟩ := hsink j hj hjs
        have hr : rank j < rank k := hrank k hk j hmem
        have hkb : rank k < n := hrankBound k hk
        have hjk : Visits predecessors k j := Visits.step k j j hmem (Visits.refl j)
        have hrj : rank j < n := hrankBound j hj
        exact visits_trans predecessors (n - 1) k j (ih k hk (by omega)) hjk
  exact fun j hj => key (n - rank j) j hj (le_refl _)

theorem visits_all_from_source (n : ℕ) (predecessors : List (List ℕ)) (rank : ℕ → ℕ)
    (hn : predecessors.length = n)
    (hvalid : ∀ j < n, ∀ p ∈ predecessors.getD j [], p < n)
    (hrank : ∀ j < n, ∀ p ∈ predecessors.getD j [], rank p < rank j)
    (hsource : ∀ j < n, j ≠ 0 → predecessors.getD j [] ≠ []) :
    ∀ j < n, Visits (successors_by_predecessors predecessors) 0 j := by
  have key : ∀ c, ∀ j, j < n → rank j < c →
      Visits (successors_by_predecessors predecessors) 0 j := by
    intro c
    induction c with
    | zero => intro j _ hc; omega
    | succ c ih =>
      intro j hj hc
      by_cases hj0 : j = 0
      · subst hj0; exact Visits.refl _
      · have hne := hsource j hj hj0
        cases hp : predecessors.getD j [] with
        | nil => exact absurd hp hne
        | cons p ps =>
          have hpmem : p ∈ predecessors.getD j [] := by rw [hp]; exact List.mem_cons_self p ps
          have hpn : p < n := hvalid j hj p hpmem
          have hpr : rank p < rank j := hrank j hj p hpmem
          have hjsucc : j ∈ (successors_by_predecessors predecessors).getD p [] := by
            rw [mem_successors predecessors p j (by omega), hn]
            exact ⟨hj, hpmem⟩
          have hpj : Visits (successors_by_predecessors predecessors) p j :=
            Visits.step p j j hjsucc (Visits.refl j)
          exact visits_trans _ 0 p j (ih p hpn (by omega)) hpj
  exact fun j hj => key (rank j + 1) j hj (by omega)

theorem esVal_stable (duration : List ℕ) (predecessors : List (List ℕ)) (n : ℕ)
    (rank : ℕ → ℕ)
    (hvalid : ∀ j < n, ∀ p ∈ predecessors.getD j [], p < n)
    (hrank : ∀ j < n, ∀ p ∈ predecessors.getD j [], rank p < rank j) :
    ∀ fuel fuel' i, i < n → rank i < fuel → rank i < fuel' →
      esVal duration predecessors fuel i = esVal duration predecessors fuel' i := by
  intro fuel
  induction fuel with
  | zero => intro fuel' i _ h _; omega
  | succ fuel ih =>
    intro fuel' i hi hf hf'
    cases fuel' with
    | zero => omega
    | succ fuel' =>
      show esVal duration predecessors (fuel + 1) i = esVal duration predecessors (fuel' + 1) i
      unfold esVal
      cases hp : predecessors.getD i [] with
      | nil => rfl
      | cons p ps =>
        have hcong : ∀ q ∈ p :: ps,
            esVal duration predecessors fuel q + (duration.getD q 0 : ℤ)
              = esVal duration predecessors fuel' q + (duration.getD q 0 : ℤ) := by
          intro q hq
          have hqn : q < n := hvalid i hi q (hp ▸ hq)
          have hqr : rank q < rank i := hrank i hi q (hp ▸ hq)
          rw [ih fuel' q hqn (by omega) (by omega)]
        dsimp only
        rw [List.map_congr_left hcong]

theorem esVal_rec (duration : List ℕ) (predecessors : List (List ℕ)) (n N : ℕ)
    (rank : ℕ → ℕ)
    (hvalid : ∀ j < n, ∀ p ∈ predecessors.getD j [], p < n)
    (hrank : ∀ j < n, ∀ p ∈ predecessors.getD j [], rank p < rank j)
    (i : ℕ) (hi : i < n) (hN : rank i < N) (p : ℕ) (ps : List ℕ)
    (hp : predecessors.getD i [] = p :: ps) :
    esVal duration predecessors N i
      = listMaxInt ((p :: ps).map
          (fun q => esVal duration predecessors N q + (duration.getD q 0 : ℤ))) := by
  cases N with
  | zero => omega
  | succ N =>
    have hcong : ∀ q ∈ p :: ps,
        esVal duration predecessors N q + (duration.getD q 0 : ℤ)
          = esVal duration predecessors (N + 1) q + (duration.getD q 0 : ℤ) := by
      intro q hq
      have hqn : q < n := hvalid i hi q (hp ▸ hq)
      have hqr : rank q < rank i := hrank i hi q (hp ▸ hq)
      rw [esVal_stable duration predecessors n rank hvalid hrank N (N + 1) q hqn
        (by omega) (by omega)]
    have hone : esVal duration predecessors (N + 1) i
        = listMaxInt ((p :: ps).map
            (fun q => esVal duration predecessors N q + (duration.getD q 0 : ℤ))) := by
      conv_lhs => rw [esVal]
      rw [hp]
    rw [hone, List.map_congr_left hcong]

theorem esVal_base (duration : List ℕ) (predecessors : List (List ℕ)) (N i : ℕ)
    (hp : predecessors.getD i [] = []) :
    esVal duration predecessors N i = 0 := by
  cases N with
  | zero => rfl
  | succ N =>
    show esVal duration predecessors (N + 1) i = 0
    unfold esVal
    rw [hp]

theorem esVal_nonneg (duration : List ℕ) (predecessors : List (List ℕ)) :
    ∀ N i, 0 ≤ esVal duration predecessors N i := by
  intro N
  induction N with
  | zero => intro i; exact le_refl 0
  | succ N ih =>
    intro i
    show 0 ≤ esVal duration predecessors (N + 1) i
    unfold esVal
    cases hp : predecessors.getD i [] with
    | nil => exact le_refl 0
    | cons p ps =>
      have hmem : esVal duration predecessors N p + (duration.getD p 0 : ℤ)
          ∈ (p :: ps).map (fun q => esVal duration predecessors N q + (duration.getD q 0 : ℤ)) :=
        List.mem_map_of_mem _ (List.mem_cons_self p ps)
      have h1 : (0 : ℤ) ≤ esVal duration predecessors N p + (duration.getD p 0 : ℤ) := by
        have := ih p
        have hd : (0 : ℤ) ≤ (duration.getD p 0 : ℤ) := Int.ofNat_nonneg _
        omega
      exact le_trans h1 (listMaxInt_ge_mem _ _ hmem)

theorem visits_lt (n : ℕ) (adj : List (List ℕ))
    (hvalid : ∀ j < n, ∀ p ∈ adj.getD j [], p < n)
    (q j : ℕ) (h : Visits adj q j) (hq : q < n) : j < n := by
  induction h with
  | refl => exact hq
  | step a p b hp _ ih => exact ih (hvalid a hq p hp)

theorem calcEsRun_spec (duration : List ℕ) (predecessors : List (List ℕ)) (n : ℕ)
    (rank : ℕ → ℕ)
    (hvalid : ∀ j < n, ∀ p ∈ predecessors.getD j [], p < n)
    (hrank : ∀ j < n, ∀ p ∈ predecessors.getD j [], rank p < rank j)
    (hrankBound : ∀ j < n, rank j < n) :
    ∀ (fuel : ℕ) (i : ℕ) (est : List ℤ), i < n → rank i < fuel → est.length = n →
      (∀ j < n, est.getD j 0 = 0 ∨ est.getD j 0 = esVal duration predecessors n j) →
      (calcEsRun duration predecessors fuel i est).1 = esVal duration predecessors n i ∧
      (calcEsRun duration predecessors fuel i est).2.length = n ∧
      (∀ j < n, (calcEsRun duration predecessors fuel i est).2.getD j 0 = est.getD j 0 ∨
        (calcEsRun duration predecessors fuel i est).2.getD j 0
          = esVal duration predecessors n j) ∧
      (∀ j, Visits predecessors i j →
        (calcEsRun duration predecessors fuel i est).2.getD j 0
          = esVal duration predecessors n j) := by
  intro fuel
  induction fuel with
  | zero => intro i est _ hf; omega
  | succ fuel ih =>
    intro i est hi hf hlen hinv
    cases hp : predecessors.getD i [] with
    | nil =>
      have hstep : calcEsRun duration predecessors (fuel + 1) i est = (est.getD i 0, est) := by
        conv_lhs => rw [calcEsRun]
        rw [hp]
      have hvi : est.getD i 0 = esVal duration predecessors n i := by
        rw [esVal_base duration predecessors n i hp]
        rcases hinv i hi with h | h
        · exact h
        · rw [h, esVal_base duration predecessors n i hp]
      rw [hstep]
      refine ⟨hvi, hlen, fun j _ => Or.inl rfl, ?_⟩
      intro j hv
      cases hv with
      | refl => exact hvi
      | step _ p _ hpm _ => rw [hp] at hpm; exact absurd hpm (List.not_mem_nil p)
    | cons p ps =>
      have hS : ∀ q ∈ p :: ps, q < n ∧ rank q < fuel := by
        intro q hq
        have hq' : q ∈ predecessors.getD i [] := hp ▸ hq
        have h1 := hvalid i hi q hq'
        have h2 := hrank i hi q hq'
        exact ⟨h1, by omega⟩
      have inner : ∀ (qs : List ℕ), (∀ q ∈ qs, q < n ∧ rank q < fuel) →
          ∀ est₁ : List ℤ, est₁.length = n →
          (∀ j < n, est₁.getD j 0 = 0 ∨ est₁.getD j 0 = esVal duration predecessors n j) →
          (calcVals (calcEsRun duration predecessors fuel)
              (fun q v => v + (duration.getD q 0 : ℤ)) qs est₁).1
            = qs.map (fun q => esVal duration predecessors n q + (duration.getD q 0 : ℤ)) ∧
          (calcVals (calcEsRun duration predecessors fuel)
              (fun q v => v + (duration.getD q 0 : ℤ)) qs est₁).2.length = n ∧
          (∀ j < n, (calcVals (calcEsRun duration predecessors fuel)
              (fun q v => v + (duration.getD q 0 : ℤ)) qs est₁).2.getD j 0
              = est₁.getD j 0 ∨
            (calcVals (calcEsRun duration predecessors fuel)
              (fun q v => v + (duration.getD q 0 : ℤ)) qs est₁).2.getD j 0
              = esVal duration predecessors n j) ∧
          (∀ j, (∃ q ∈ qs, Visits predecessors q j) →
            (calcVals (calcEsRun duration predecessors fuel)
              (fun q v => v + (duration.getD q 0 : ℤ)) qs est₁).2.getD j 0
              = esVal duration predecessors n j) := by
        intro qs
        induction qs with
        | nil =>
          intro _ est₁ hlen₁ _
          refine ⟨rfl, hlen₁, fun j _ => Or.inl rfl, ?_⟩
          rintro j ⟨q, hq, -⟩
          exact absurd hq (List.not_mem_nil q)
        | cons q qs ihq =>
          intro hqs est₁ hlen₁ hinv₁
          have hq := hqs q (List.mem_cons_self q qs)
          obtain ⟨e1, e2, e3, e4⟩ := ih q est₁ hq.1 hq.2 hlen₁ hinv₁
          have hinv₂ : ∀ j < n,
              (calcEsRun duration predecessors fuel q est₁).2.getD j 0 = 0 ∨
              (calcEsRun duration predecessors fuel q est₁).2.getD j 0
                = esVal duration predecessors n j := by
            intro j hj
            rcases e3 j hj with h | h
            · rw [h]; exact hinv₁ j hj
            · exact Or.inr h
          obtain ⟨f1, f2, f3, f4⟩ := ihq (fun x hx => hqs x (List.mem_cons_of_mem q hx))
            (calcEsRun duration predecessors fuel q est₁).2 e2 hinv₂
          have hstep : calcVals (calcEsRun duration predecessors fuel)
              (fun q v => v + (duration.getD q 0 : ℤ)) (q :: qs) est₁
              = (((calcEsRun duration predecessors fuel q est₁).1 + (duration.getD q 0 : ℤ))
                  :: (calcVals (calcEsRun duration predecessors fuel)
                    (fun q v => v + (duration.getD q 0 : ℤ)) qs
                    (calcEsRun duration predecessors fuel q est₁).2).1,
                (calcVals (calcEsRun duration predecessors fuel)
                    (fun q v => v + (duration.getD q 0 : ℤ)) qs
                    (calcEsRun duration predecessors fuel q est₁).2).2) := rfl
          rw [hstep]
          refine ⟨?_, f2, ?_, ?_⟩
          · show _ :: _ = _ :: _
            rw [e1, f1]
          · intro j hj
            rcases f3 j hj with h | h
            · rcases e3 j hj with h' | h'
              · exact Or.inl (h.trans h')
              · exact Or.inr (h.trans h')
            · exact Or.inr h
          · rintro j ⟨x, hx, hv⟩
            rcases List.mem_cons.mp hx with h | h
            · subst h
              have hjn : j < n := visits_lt n predecessors hvalid x j hv hq.1
              have hcor := e4 j hv
              rcases f3 j hjn with h' | h'
              · exact h'.trans hcor
              · exact h'
            · exact f4 j ⟨x, h, hv⟩
      obtain ⟨g1, g2, g3, g4⟩ := inner (p :: ps) hS est hlen hinv
      have hstep : calcEsRun duration predecessors (fuel + 1) i est
          = (((calcVals (calcEsRun duration predecessors fuel)
                (fun q v => v + (duration.getD q 0 : ℤ)) (p :: ps) est).2.set i
                (listMaxInt (calcVals (calcEsRun duration predecessors fuel)
                  (fun q v => v + (duration.getD q 0 : ℤ)) (p :: ps) est).1)).getD i 0,
              (calcVals (calcEsRun duration predecessors fuel)
                (fun q v => v + (duration.getD q 0 : ℤ)) (p :: ps) est).2.set i
                (listMaxInt (calcVals (calcEsRun duration predecessors fuel)
                  (fun q v => v + (duration.getD q 0 : ℤ)) (p :: ps) est).1)) := by
        conv_lhs => rw [calcEsRun]
        rw [hp]
      have hmax : listMaxInt (calcVals (calcEsRun duration predecessors fuel)
          (fun q v => v + (duration.getD q 0 : ℤ)) (p :: ps) est).1
          = esVal duration predecessors n i := by
        rw [g1]
        exact (esVal_rec duration predecessors n n rank hvalid hrank i hi
          (hrankBound i hi) p ps hp).symm
      have hset : ((calcVals (calcEsRun duration predecessors fuel)
            (fun q v => v + (duration.getD q 0 : ℤ)) (p :: ps) est).2.set i
            (listMaxInt (calcVals (calcEsRun duration predecessors fuel)
              (fun q v => v + (duration.getD q 0 : ℤ)) (p :: ps) est).1)).getD i 0
          = esVal duration predecessors n i := by
        rw [getD_set_self _ i _ 0 (by rw [g2]; exact hi), hmax]
      rw [hstep]
      refine ⟨hset, by rw [List.length_set]; exact g2, ?_, ?_⟩
      · intro j hj
        by_cases hji : j = i
        · subst hji
          exact Or.inr hset
        · rw [getD_set_ne _ i j _ 0 (fun h => hji h.symm)]
          exact g3 j hj
      · intro j hv
        by_cases hji : j = i
        · subst hji
          exact hset
        · rw [getD_set_ne _ i j _ 0 (fun h => hji h.symm)]
          cases hv with
          | refl => exact absurd rfl hji
          | step _ x _ hxm hxv =>
            rw [hp] at hxm
            exact g4 j ⟨x, hxm, hxv⟩

theorem lfVal_stable (duration : List ℕ) (successors : List (List ℕ)) (est : List ℤ)
    (n : ℕ) (crank : ℕ → ℕ)
    (hvalid : ∀ j < n, ∀ s ∈ successors.getD j [], s < n)
    (hcrank : ∀ j < n, ∀ s ∈ successors.getD j [], crank s < crank j) :
    ∀ fuel fuel' i, i < n → crank i < fuel → crank i < fuel' →
      lfVal duration successors est fuel i = lfVal duration successors est fuel' i := by
  intro fuel
  induction fuel with
  | zero => intro fuel' i _ h _; omega
  | succ fuel ih =>
    intro fuel' i hi hf hf'
    cases fuel' with
    | zero => omega
    | succ fuel' =>
      show lfVal duration successors est (fuel + 1) i
        = lfVal duration successors est (fuel' + 1) i
      unfold lfVal
      by_cases hi1 : i = duration.length - 1
      · rw [if_pos hi1, if_pos hi1]
      · rw [if_neg hi1, if_neg hi1]
        cases hs : successors.getD i [] with
        | nil => rfl
        | cons s ss =>
          dsimp only
          have hcong : ∀ q ∈ s :: ss,
              lfVal duration successors est fuel q - (duration.getD q 0 : ℤ)
                = lfVal duration successors est fuel' q - (duration.getD q 0 : ℤ) := by
            intro q hq
            have hqn : q < n := hvalid i hi q (hs ▸ hq)
            have hqr : crank q < crank i := hcrank i hi q (hs ▸ hq)
            rw [ih fuel' q hqn (by omega) (by omega)]
          rw [List.map_congr_left hcong]

theorem lfVal_sink (duration : List ℕ) (successors : List (List ℕ)) (est : List ℤ)
    (N : ℕ) (hN : 0 < N) :
    lfVal duration successors est N (duration.length - 1)
      = est.getD (duration.length - 1) 0 := by
  cases N with
  | zero => omega
  | succ N =>
    show lfVal duration successors est (N + 1) (duration.length - 1) = _
    unfold lfVal
    rw [if_pos rfl]

theorem lfVal_base (duration : List ℕ) (successors : List (List ℕ)) (est : List ℤ)
    (N i : ℕ) (hi1 : i ≠ duration.length - 1) (hs : successors.getD i [] = []) :
    lfVal duration successors est N i = 0 := by
  cases N with
  | zero => rfl
  | succ N =>
    show lfVal duration successors est (N + 1) i = 0
    unfold lfVal
    rw [if_neg hi1, hs]

theorem lfVal_rec (duration : List ℕ) (successors : List (List ℕ)) (est : List ℤ)
    (n N : ℕ) (crank : ℕ → ℕ)
    (hvalid : ∀ j < n, ∀ s ∈ successors.getD j [], s < n)
    (hcrank : ∀ j < n, ∀ s ∈ successors.getD j [], crank s < crank j)
    (i : ℕ) (hi : i < n) (hi1 : i ≠ duration.length - 1) (hN : crank i < N)
    (s : ℕ) (ss : List ℕ) (hs : successors.getD i [] = s :: ss) :
    lfVal duration successors est N i
      = listMinInt ((s :: ss).map
          (fun q => lfVal duration successors est N q - (duration.getD q 0 : ℤ))) := by
  cases N with
  | zero => omega
  | succ N =>
    have hcong : ∀ q ∈ s :: ss,
        lfVal duration successors est N q - (duration.getD q 0 : ℤ)
          = lfVal duration successors est (N + 1) q - (duration.getD q 0 : ℤ) := by
      intro q hq
      have hqn : q < n := hvalid i hi q (hs ▸ hq)
      have hqr : crank q < crank i := hcrank i hi q (hs ▸ hq)
      rw [lfVal_stable duration successors est n crank hvalid hcrank N (N + 1) q hqn
        (by omega) (by omega)]
    have hone : lfVal duration successors est (N + 1) i
        = listMinInt ((s :: ss).map
            (fun q => lfVal duration successors est N q - (duration.getD q 0 : ℤ))) := by
      conv_lhs => rw [lfVal]
      rw [if_neg hi1, hs]
    rw [hone, List.map_congr_left hcong]

theorem visits_all_from_source_stop (n : ℕ) (predecessors : List (List ℕ)) (rank : ℕ → ℕ)
    (hn : predecessors.length = n)
    (hvalid : ∀ j < n, ∀ p ∈ predecessors.getD j [], p < n)
    (hrank : ∀ j < n, ∀ p ∈ predecessors.getD j [], rank p < rank j)
    (hsource : ∀ j < n, j ≠ 0 → predecessors.getD j [] ≠ [])
    (hsinkLast : ∀ j < n, n - 1 ∉ predecessors.getD j []) :
    ∀ j < n, Visits ((successors_by_predecessors predecessors).set (n - 1) []) 0 j := by
  have key : ∀ c, ∀ j, j < n → rank j < c →
      Visits ((successors_by_predecessors predecessors).set (n - 1) []) 0 j := by
    intro c
    induction c with
    | zero => intro j _ hc; omega
    | succ c ih =>
      intro j hj hc
      by_cases hj0 : j = 0
      · subst hj0; exact Visits.refl _
      · have hne := hsource j hj hj0
        cases hp : predecessors.getD j [] with
        | nil => exact absurd hp hne
        | cons p ps =>
          have hpmem : p ∈ predecessors.getD j [] := by rw [hp]; exact List.mem_cons_self p ps
          have hpn : p < n := hvalid j hj p hpmem
          have hpr : rank p < rank j := hrank j hj p hpmem
          have hpsink : p ≠ n - 1 := fun h => hsinkLast j hj (h ▸ hpmem)
          have hjsucc : j ∈ ((successors_by_predecessors predecessors).set (n - 1) []).getD p [] := by
            rw [getD_set_ne _ _ _ _ _ (fun h => hpsink h.symm)]
            rw [mem_successors predecessors p j (by omega), hn]
            exact ⟨hj, hpmem⟩
          have hpj : Visits ((successors_by_predecessors predecessors).set (n - 1) []) p j :=
            Visits.step p j j hjsucc (Visits.refl j)
          exact visits_trans _ 0 p j (ih p hpn (by omega)) hpj
  exact fun j hj => key (rank j + 1) j hj (by omega)

theorem calcLfRun_spec (duration : List ℕ) (successors : List (List ℕ)) (est : List ℤ)
    (n : ℕ) (crank : ℕ → ℕ)
    (hslen : successors.length = n)
    (hvalid : ∀ j < n, ∀ s ∈ successors.getD j [], s < n)
    (hcrank : ∀ j < n, ∀ s ∈ successors.getD j [], crank s < crank j)
    (hcrankBound : ∀ j < n, crank j < n) :
    ∀ (fuel : ℕ) (i : ℕ) (lst : List ℤ), i < n → crank i < fuel → lst.length = n →
      (∀ j < n, lst.getD j 0 = 0 ∨ lst.getD j 0 = lfVal duration successors est n j) →
      (calcLfRun duration successors est fuel i lst).1
        = lfVal duration successors est n i ∧
      (calcLfRun duration successors est fuel i lst).2.length = n ∧
      (∀ j < n, (calcLfRun duration successors est fuel i lst).2.getD j 0 = lst.getD j 0 ∨
        (calcLfRun duration successors est fuel i lst).2.getD j 0
          = lfVal duration successors est n j) ∧
      (∀ j, Visits (successors.set (duration.length - 1) []) i j →
        (calcLfRun duration successors est fuel i lst).2.getD j 0
          = lfVal duration successors est n j) := by
  have hvalidP : ∀ j < n, ∀ s ∈ (successors.set (duration.length - 1) []).getD j [], s < n := by
    intro j hj s hs
    by_cases hjs : j = duration.length - 1
    · subst hjs
      rw [getD_set_self _ _ _ _ (by omega)] at hs
      exact absurd hs (List.not_mem_nil s)
    · rw [getD_set_ne _ _ _ _ _ (fun h => hjs h.symm)] at hs
      exact hvalid j hj s hs
  intro fuel
  induction fuel with
  | zero => intro i lst _ hf; omega
  | succ fuel ih =>
    intro i lst hi hf hlen hinv
    by_cases hi1 : i = duration.length - 1
    · -- sink branch: write est[i] into lst[i]
      have hstep : calcLfRun duration successors est (fuel + 1) i lst
          = ((lst.set i (est.getD i 0)).getD i 0, lst.set i (est.getD i 0)) := by
        conv_lhs => rw [calcLfRun]
        rw [if_pos hi1]
      have hvi : (lst.set i (est.getD i 0)).getD i 0
          = lfVal duration successors est n i := by
        rw [getD_set_self _ i _ 0 (by omega), hi1]
        exact (lfVal_sink duration successors est n (by omega)).symm
      rw [hstep]
      refine ⟨hvi, by rw [List.length_set]; exact hlen, ?_, ?_⟩
      · intro j hj
        by_cases hji : j = i
        · subst hji; exact Or.inr hvi
        · rw [getD_set_ne _ i j _ 0 (fun h => hji h.symm)]
          exact Or.inl rfl
      · intro j hv
        cases hv with
        | refl => exact hvi
        | step _ x _ hxm _ =>
          rw [hi1] at hxm ⊢
          rw [getD_set_self _ _ _ _ (by omega)] at hxm
          exact absurd hxm (List.not_mem_nil x)
    · cases hp : successors.getD i [] with
      | nil =>
        have hstep : calcLfRun duration successors est (fuel + 1) i lst
            = (lst.getD i 0, lst) := by
          conv_lhs => rw [calcLfRun]
          rw [if_neg hi1, hp]
        have hvi : lst.getD i 0 = lfVal duration successors est n i := by
          rw [lfVal_base duration successors est n i hi1 hp]
          rcases hinv i hi with h | h
          · exact h
          · rw [h, lfVal_base duration successors est n i hi1 hp]
        rw [hstep]
        refine ⟨hvi, hlen, fun j _ => Or.inl rfl, ?_⟩
        intro j hv
        cases hv with
        | refl => exact hvi
        | step _ x _ hxm _ =>
          rw [getD_set_ne _ _ _ _ _ (fun h => hi1 h.symm)] at hxm
          rw [hp] at hxm
          exact absurd hxm (List.not_mem_nil x)
      | cons s ss =>
        have hS : ∀ q ∈ s :: ss, q < n ∧ crank q < fuel := by
          intro q hq
          have hq' : q ∈ successors.getD i [] := hp ▸ hq
          have h1 := hvalid i hi q hq'
          have h2 := hcrank i hi q hq'
          exact ⟨h1, by omega⟩
        have inner : ∀ (qs : List ℕ), (∀ q ∈ qs, q < n ∧ crank q < fuel) →
            ∀ lst₁ : List ℤ, lst₁.length = n →
            (∀ j < n, lst₁.getD j 0 = 0 ∨ lst₁.getD j 0 = lfVal duration successors est n j) →
            (calcVals (calcLfRun duration successors est fuel)
                (fun q v => v - (duration.getD q 0 : ℤ)) qs lst₁).1
              = qs.map (fun q => lfVal duration successors est n q - (duration.getD q 0 : ℤ)) ∧
            (calcVals (calcLfRun duration successors est fuel)
                (fun q v => v - (duration.getD q 0 : ℤ)) qs lst₁).2.length = n ∧
            (∀ j < n, (calcVals (calcLfRun duration successors est fuel)
                (fun q v => v - (duration.getD q 0 : ℤ)) qs lst₁).2.getD j 0
                = lst₁.getD j 0 ∨
              (calcVals (calcLfRun duration successors est fuel)
                (fun q v => v - (duration.getD q 0 : ℤ)) qs lst₁).2.getD j 0
                = lfVal duration successors est n j) ∧
            (∀ j, (∃ q ∈ qs, Visits (successors.set (duration.length - 1) []) q j) →
              (calcVals (calcLfRun duration successors est fuel)
                (fun q v => v - (duration.getD q 0 : ℤ)) qs lst₁).2.getD j 0
                = lfVal duration successors est n j) := by
          intro qs
          induction qs with
          | nil =>
            intro _ lst₁ hlen₁ _
            refine ⟨rfl, hlen₁, fun j _ => Or.inl rfl, ?_⟩
            rintro j ⟨q, hq, -⟩
            exact absurd hq (List.not_mem_nil q)
          | cons q qs ihq =>
            intro hqs lst₁ hlen₁ hinv₁
            have hq := hqs q (List.mem_cons_self q qs)
            obtain ⟨e1, e2, e3, e4⟩ := ih q lst₁ hq.1 hq.2 hlen₁ hinv₁
            have hinv₂ : ∀ j < n,
                (calcLfRun duration successors est fuel q lst₁).2.getD j 0 = 0 ∨
                (calcLfRun duration successors est fuel q lst₁).2.getD j 0
                  = lfVal duration successors est n j := by
              intro j hj
              rcases e3 j hj with h | h
              · rw [h]; exact hinv₁ j hj
              · exact Or.inr h
            obtain ⟨f1, f2, f3, f4⟩ := ihq (fun x hx => hqs x (List.mem_cons_of_mem q hx))
              (calcLfRun duration successors est fuel q lst₁).2 e2 hinv₂
            have hstep : calcVals (calcLfRun duration successors est fuel)
                (fun q v => v - (duration.getD q 0 : ℤ)) (q :: qs) lst₁
                = (((calcLfRun duration successors est fuel q lst₁).1
                      - (duration.getD q 0 : ℤ))
                    :: (calcVals (calcLfRun duration successors est fuel)
                      (fun q v => v - (duration.getD q 0 : ℤ)) qs
                      (calcLfRun duration successors est fuel q lst₁).2).1,
                  (calcVals (calcLfRun duration successors est fuel)
                      (fun q v => v - (duration.getD q 0 : ℤ)) qs
                      (calcLfRun duration successors est fuel q lst₁).2).2) := rfl
            rw [hstep]
            refine ⟨?_, f2, ?_, ?_⟩
            · show _ :: _ = _ :: _
              rw [e1, f1]
            · intro j hj
              rcases f3 j hj with h | h
              · rcases e3 j hj with h' | h'
                · exact Or.inl (h.trans h')
                · exact Or.inr (h.trans h')
              · exact Or.inr h
            · rintro j ⟨x, hx, hv⟩
              rcases List.mem_cons.mp hx with h | h
              · subst h
                have hjn : j < n := visits_lt n _ hvalidP x j hv hq.1
                have hcor := e4 j hv
                rcases f3 j hjn with h' | h'
                · exact h'.trans hcor
                · exact h'
              · exact f4 j ⟨x, h, hv⟩
        obtain ⟨g1, g2, g3, g4⟩ := inner (s :: ss) hS lst hlen hinv
        have hstep : calcLfRun duration successors est (fuel + 1) i lst
            = (((calcVals (calcLfRun duration successors est fuel)
                  (fun q v => v - (duration.getD q 0 : ℤ)) (s :: ss) lst).2.set i
                  (listMinInt (calcVals (calcLfRun duration successors est fuel)
                    (fun q v => v - (duration.getD q 0 : ℤ)) (s :: ss) lst).1)).getD i 0,
                (calcVals (calcLfRun duration successors est fuel)
                  (fun q v => v - (duration.getD q 0 : ℤ)) (s :: ss) lst).2.set i
                  (listMinInt (calcVals (calcLfRun duration successors est fuel)
                    (fun q v => v - (duration.getD q 0 : ℤ)) (s :: ss) lst).1)) := by
          conv_lhs => rw [calcLfRun]
          rw [if_neg hi1, hp]
        have hmin : listMinInt (calcVals (calcLfRun duration successors est fuel)
            (fun q v => v - (duration.getD q 0 : ℤ)) (s :: ss) lst).1
            = lfVal duration successors est n i := by
          rw [g1]
          exact (lfVal_rec duration successors est n n crank hvalid hcrank i hi hi1
            (hcrankBound i hi) s ss hp).symm
        have hset : ((calcVals (calcLfRun duration successors est fuel)
              (fun q v => v - (duration.getD q 0 : ℤ)) (s :: ss) lst).2.set i
              (listMinInt (calcVals (calcLfRun duration successors est fuel)
                (fun q v => v - (duration.getD q 0 : ℤ)) (s :: ss) lst).1)).getD i 0
            = lfVal duration successors est n i := by
          rw [getD_set_self _ i _ 0 (by rw [g2]; exact hi), hmin]
        rw [hstep]
        refine ⟨hset, by rw [List.length_set]; exact g2, ?_, ?_⟩
        · intro j hj
          by_cases hji : j = i
          · subst hji
            exact Or.inr hset
          · rw [getD_set_ne _ i j _ 0 (fun h => hji h.symm)]
            exact g3 j hj
        · intro j hv
          by_cases hji : j = i
          · subst hji
            exact hset
          · rw [getD_set_ne _ i j _ 0 (fun h => hji h.symm)]
            cases hv with
            | refl => exact absurd rfl hji
            | step _ x _ hxm hxv =>
              rw [getD_set_ne _ _ _ _ _ (fun h => hi1 h.symm)] at hxm
              rw [hp] at hxm
              exact g4 j ⟨x, hxm, hxv⟩

theorem succ_length (predecessors : List (List ℕ)) :
    (successors_by_predecessors predecessors).length = predecessors.length := by
  unfold successors_by_predecessors
  simp

theorem esVal_le_lfVal (duration : List ℕ) (predecessors : List (List ℕ)) (est : List ℤ)
    (n : ℕ) (rank : ℕ → ℕ)
    (hdn : duration.length = n)
    (hpn : predecessors.length = n)
    (hpos : 0 < n)
    (hvalid : ∀ j < n, ∀ p ∈ predecessors.getD j [], p < n)
    (hrank : ∀ j < n, ∀ p ∈ predecessors.getD j [], rank p < rank j)
    (hrankBound : ∀ j < n, rank j < n)
    (hsink : ∀ j < n, j ≠ n - 1 → ∃ k < n, j ∈ predecessors.getD k [])
    (hdur0 : duration.getD (n - 1) 0 = 0)
    (hestEq : ∀ j < n, est.getD j 0 = esVal duration predecessors n j) :
    ∀ i < n, esVal duration predecessors n i + (duration.getD i 0 : ℤ)
      ≤ lfVal duration (successors_by_predecessors predecessors) est n i := by
  have hsvalid : ∀ j < n, ∀ s ∈ (successors_by_predecessors predecessors).getD j [], s < n := by
    intro j hj s hs
    rw [mem_successors predecessors j s (by omega)] at hs
    omega
  have hscrank : ∀ j < n, ∀ s ∈ (successors_by_predecessors predecessors).getD j [],
      (n - 1 - rank s) < (n - 1 - rank j) := by
    intro j hj s hs
    rw [mem_successors predecessors j s (by omega)] at hs
    obtain ⟨hsn', hjps⟩ := hs
    have hsn : s < n := by omega
    have h1 : rank j < rank s := hrank s hsn j hjps
    have h2 : rank s < n := hrankBound s hsn
    omega
  have key : ∀ c, ∀ i, i < n → n - rank i ≤ c →
      esVal duration predecessors n i + (duration.getD i 0 : ℤ)
        ≤ lfVal duration (successors_by_predecessors predecessors) est n i := by
    intro c
    induction c with
    | zero =>
      intro i hi hc
      exact absurd (hrankBound i hi) (by omega)
    | succ c ih =>
      intro i hi hc
      by_cases hi1 : i = n - 1
      · subst hi1
        have hsinkv : lfVal duration (successors_by_predecessors predecessors) est n (n - 1)
            = est.getD (n - 1) 0 := by
          have h := lfVal_sink duration (successors_by_predecessors predecessors) est n
            (by omega)
          rw [hdn] at h
          exact h
        rw [hsinkv, hestEq (n - 1) hi]
        have hd : (duration.getD (n - 1) 0 : ℤ) = 0 := by
          rw [hdur0]
          rfl
        omega
      · obtain ⟨k, hk, hkmem⟩ := hsink i hi hi1
        have hksucc : k ∈ (successors_by_predecessors predecessors).getD i [] := by
          rw [mem_successors predecessors i k (by omega), hpn]
          exact ⟨hk, hkmem⟩
        cases hs : (successors_by_predecessors predecessors).getD i [] with
        | nil => rw [hs] at hksucc; exact absurd hksucc (List.not_mem_nil k)
        | cons s ss =>
          have hrec := lfVal_rec duration (successors_by_predecessors predecessors) est n n
            (fun j => n - 1 - rank j) hsvalid hscrank i hi (by omega)
            (by show n - 1 - rank i < n; have := hrankBound i hi; omega) s ss hs
          rw [hrec]
          apply listMinInt_ge _ _ (by simp)
          intro x hx
          obtain ⟨q, hq, hxq⟩ := List.mem_map.mp hx
          have hqsucc : q ∈ (successors_by_predecessors predecessors).getD i [] := hs ▸ hq
          have hqmem := (mem_successors predecessors i q (by omega)).mp hqsucc
          have hqn : q < n := by omega
          have hipq : i ∈ predecessors.getD q [] := hqmem.2
          have hrq : rank i < rank q := hrank q hqn i hipq
          have hrqb : rank q < n := hrankBound q hqn
          have hih := ih q hqn (by omega)
          have hesle : esVal duration predecessors n i + (duration.getD i 0 : ℤ)
              ≤ esVal duration predecessors n q := by
            cases hpq : predecessors.getD q [] with
            | nil => rw [hpq] at hipq; exact absurd hipq (List.not_mem_nil i)
            | cons p' ps' =>
              rw [esVal_rec duration predecessors n n rank hvalid hrank q hqn
                (hrankBound q hqn) p' ps' hpq]
              apply listMaxInt_ge_mem
              apply List.mem_map_of_mem
              rw [← hpq]
              exact hipq
          have hxval : x = lfVal duration (successors_by_predecessors predecessors) est n q
              - (duration.getD q 0 : ℤ) := by
            rw [← hxq]
          rw [hxval]
          omega
  intro i hi
  exact key (n - rank i) i hi (le_refl _)

theorem getD_replicate_zero (n j : ℕ) : (List.replicate n (0 : ℤ)).getD j 0 = 0 := by
  rw [List.getD_eq_getElem?_getD, List.getElem?_replicate]
  split
  · rfl
  · rfl

/-- **C6**: on an acyclic single-sink network (acyclicity via a rank function,
every non-sink activity having at least one successor, references in range),
the first vector returned by `calculate_critical_times` satisfies the
earliest-start recurrence: `est[i] = 0` when `predecessors[i]` is empty, and
otherwise `est[i] = max over p in predecessors[i] of (est[p] + duration[p])`,
for every activity `i`. -/
theorem c6_est_recurrence (duration : List ℕ) (predecessors successors : List (List ℕ))
    (fuel : ℕ) (rank : ℕ → ℕ)
    (hpos : 0 < duration.length)
    (hvalid : ∀ j < duration.length, ∀ p ∈ predecessors.getD j [], p < duration.length)
    (hrank : ∀ j < duration.length, ∀ p ∈ predecessors.getD j [], rank p < rank j)
    (hrankBound : ∀ j < duration.length, rank j < duration.length)
    (hsink : ∀ j < duration.length, j ≠ duration.length - 1 →
      ∃ k < duration.length, j ∈ predecessors.getD k [])
    (hfuel : duration.length ≤ fuel) :
    ∀ i < duration.length,
      (calculate_critical_times fuel duration predecessors successors).1.getD i 0
        = if predecessors.getD i [] = [] then 0
          else listMaxInt ((predecessors.getD i []).map
            (fun p => (calculate_critical_times fuel duration predecessors successors).1.getD p 0
              + (duration.getD p 0 : ℤ))) := by
  have hcct : (calculate_critical_times fuel duration predecessors successors).1
      = (calcEsRun duration predecessors fuel (duration.length - 1)
          (List.replicate duration.length 0)).2 := rfl
  obtain ⟨-, -, -, h4⟩ := calcEsRun_spec duration predecessors duration.length rank
    hvalid hrank hrankBound fuel (duration.length - 1)
    (List.replicate duration.length 0) (by omega)
    (by have := hrankBound (duration.length - 1) (by omega); omega)
    (by rw [List.length_replicate])
    (fun j _ => Or.inl (getD_replicate_zero duration.length j))
  have hvis := visits_all_from_sink duration.length predecessors rank hrank hrankBound hsink
  have hall : ∀ j < duration.length,
      (calcEsRun duration predecessors fuel (duration.length - 1)
        (List.replicate duration.length 0)).2.getD j 0
      = esVal duration predecessors duration.length j :=
    fun j hj => h4 j (hvis j hj)
  intro i hi
  rw [hcct, hall i hi]
  cases hp : predecessors.getD i [] with
  | nil =>
    rw [if_pos rfl]
    exact esVal_base duration predecessors duration.length i hp
  | cons p ps =>
    rw [if_neg (by simp)]
    rw [esVal_rec duration predecessors duration.length duration.length rank hvalid hrank
      i hi (hrankBound i hi) p ps hp]
    apply congrArg
    apply List.map_congr_left
    intro q hq
    have hqn : q < duration.length := hvalid i hi q (hp ▸ hq)
    rw [hall q hqn]

/-- Witness for C6 on the two-activity chain, instantiated at activity 1. -/
theorem c6_witness :
    (calculate_critical_times 2 [1, 1] [[], [0]] []).1.getD 1 0
      = if ([[], [0]] : List (List ℕ)).getD 1 [] = [] then 0
        else listMaxInt ((([[], [0]] : List (List ℕ)).getD 1 []).map
          (fun p => (calculate_critical_times 2 [1, 1] [[], [0]] []).1.getD p 0
            + ([1, 1].getD p 0 : ℤ))) :=
  c6_est_recurrence [1, 1] [[], [0]] [] 2 id (by decide) (by decide) (by decide)
    (by decide) (by decide) (by decide) 1 (by decide)

/-- **C7 (amended)**: on a well-formed network (acyclic via a rank function,
references in range, unique source `0`, unique sink `n-1` with no successors)
whose sink is a dummy activity of duration `0`, the vectors returned by
`calculate_critical_times` satisfy `0 <= est[i]` and `est[i] <= lst[i]` for
every activity, with `est[n-1] == lst[n-1]` at the sink.  (The unamended claim
is refuted by `c7_counterexample`: with a positive sink duration the backward
pass is seeded at `est[n-1]` instead of the sink's finish time.) -/
theorem c7_critical_bounds (duration : List ℕ) (predecessors : List (List ℕ))
    (fuel : ℕ) (rank : ℕ → ℕ)
    (hpn : predecessors.length = duration.length)
    (hpos : 0 < duration.length)
    (hvalid : ∀ j < duration.length, ∀ p ∈ predecessors.getD j [], p < duration.length)
    (hrank : ∀ j < duration.length, ∀ p ∈ predecessors.getD j [], rank p < rank j)
    (hrankBound : ∀ j < duration.length, rank j < duration.length)
    (hsink : ∀ j < duration.length, j ≠ duration.length - 1 →
      ∃ k < duration.length, j ∈ predecessors.getD k [])
    (hsource : ∀ j < duration.length, j ≠ 0 → predecessors.getD j [] ≠ [])
    (hsinkLast : ∀ j < duration.length, duration.length - 1 ∉ predecessors.getD j [])
    (hdur0 : duration.getD (duration.length - 1) 0 = 0)
    (hfuel : duration.length ≤ fuel) :
    (∀ i < duration.length,
      0 ≤ (calculate_critical_times fuel duration predecessors []).1.getD i 0 ∧
      (calculate_critical_times fuel duration predecessors []).1.getD i 0
        ≤ (calculate_critical_times fuel duration predecessors []).2.getD i 0) ∧
    (calculate_critical_times fuel duration predecessors []).1.getD
        (duration.length - 1) 0
      = (calculate_critical_times fuel duration predecessors []).2.getD
        (duration.length - 1) 0 := by
  have hcct1 : (calculate_critical_times fuel duration predecessors []).1
      = (calcEsRun duration predecessors fuel (duration.length - 1)
          (List.replicate duration.length 0)).2 := rfl
  have hcct2 : (calculate_critical_times fuel duration predecessors []).2
      = (calcLfRun duration (successors_by_predecessors predecessors)
          (calcEsRun duration predecessors fuel (duration.length - 1)
            (List.replicate duration.length 0)).2 fuel 0
          (List.replicate duration.length 0)).2 := rfl
  -- forward pass
  obtain ⟨-, -, -, h4⟩ := calcEsRun_spec duration predecessors duration.length rank
    hvalid hrank hrankBound fuel (duration.length - 1)
    (List.replicate duration.length 0) (by omega)
    (by have := hrankBound (duration.length - 1) (by omega); omega)
    (by rw [List.length_replicate])
    (fun j _ => Or.inl (getD_replicate_zero duration.length j))
  have hvis := visits_all_from_sink duration.length predecessors rank hrank hrankBound hsink
  have hestEq : ∀ j < duration.length,
      (calcEsRun duration predecessors fuel (duration.length - 1)
        (List.replicate duration.length 0)).2.getD j 0
      = esVal duration predecessors duration.length j :=
    fun j hj => h4 j (hvis j hj)
  -- backward pass
  have hsvalid : ∀ j < duration.length,
      ∀ s ∈ (successors_by_predecessors predecessors).getD j [], s < duration.length := by
    intro j hj s hs
    rw [mem_successors predecessors j s (by omega)] at hs
    omega
  have hscrank : ∀ j < duration.length,
      ∀ s ∈ (successors_by_predecessors predecessors).getD j [],
      (duration.length - 1 - rank s) < (duration.length - 1 - rank j) := by
    intro j hj s hs
    rw [mem_successors predecessors j s (by omega)] at hs
    obtain ⟨hsn', hjps⟩ := hs
    have hsn : s < duration.length := by omega
    have h1 : rank j < rank s := hrank s hsn j hjps
    have h2 : rank s < duration.length := hrankBound s hsn
    omega
  obtain ⟨-, -, -, l4⟩ := calcLfRun_spec duration (successors_by_predecessors predecessors)
    (calcEsRun duration predecessors fuel (duration.length - 1)
      (List.replicate duration.length 0)).2
    duration.length (fun j => duration.length - 1 - rank j)
    (by rw [succ_length, hpn]) hsvalid hscrank
    (by intro j hj; show duration.length - 1 - rank j < duration.length; omega)
    fuel 0 (List.replicate duration.length 0) hpos
    (by show duration.length - 1 - rank 0 < fuel; omega)
    (by rw [List.length_replicate])
    (fun j _ => Or.inl (getD_replicate_zero duration.length j))
  have hvisL := visits_all_from_source_stop duration.length predecessors rank hpn
    hvalid hrank hsource hsinkLast
  have hlstEq : ∀ j < duration.length,
      (calcLfRun duration (successors_by_predecessors predecessors)
        (calcEsRun duration predecessors fuel (duration.length - 1)
          (List.replicate duration.length 0)).2 fuel 0
        (List.replicate duration.length 0)).2.getD j 0
      = lfVal duration (successors_by_predecessors predecessors)
          (calcEsRun duration predecessors fuel (duration.length - 1)
            (List.replicate duration.length 0)).2 duration.length j :=
    fun j hj => l4 j (hvisL j hj)
  have hcmp := esVal_le_lfVal duration predecessors
    (calcEsRun duration predecessors fuel (duration.length - 1)
      (List.replicate duration.length 0)).2
    duration.length rank rfl hpn hpos hvalid hrank hrankBound hsink hdur0 hestEq
  constructor
  · intro i hi
    rw [hcct1, hcct2, hestEq i hi, hlstEq i hi]
    constructor
    · exact esVal_nonneg duration predecessors duration.length i
    · have h1 := hcmp i hi
      have h2 : (0 : ℤ) ≤ (duration.getD i 0 : ℤ) := Int.ofNat_nonneg _
      omega
  · rw [hcct1, hcct2, hestEq (duration.length - 1) (by omega),
      hlstEq (duration.length - 1) (by omega)]
    have hsk := lfVal_sink duration (successors_by_predecessors predecessors)
      (calcEsRun duration predecessors fuel (duration.length - 1)
        (List.replicate duration.length 0)).2 duration.length hpos
    rw [hsk, hestEq (duration.length - 1) (by omega)]

/-- Witness for C7 (amended) on the chain `0 -> 1 -> 2` with durations
`[0,1,0]` (dummy source and sink). -/
theorem c7_witness :
    (∀ i < ([0, 1, 0] : List ℕ).length,
      0 ≤ (calculate_critical_times 3 [0, 1, 0] [[], [0], [1]] []).1.getD i 0 ∧
      (calculate_critical_times 3 [0, 1, 0] [[], [0], [1]] []).1.getD i 0
        ≤ (calculate_critical_times 3 [0, 1, 0] [[], [0], [1]] []).2.getD i 0) ∧
    (calculate_critical_times 3 [0, 1, 0] [[], [0], [1]] []).1.getD
        (([0, 1, 0] : List ℕ).length - 1) 0
      = (calculate_critical_times 3 [0, 1, 0] [[], [0], [1]] []).2.getD
        (([0, 1, 0] : List ℕ).length - 1) 0 :=
  c7_critical_bounds [0, 1, 0] [[], [0], [1]] 3 id rfl (by decide) (by decide) (by decide)
    (by decide) (by decide) (by decide) (by decide) (by decide) (by decide)

theorem getD_of_length_le {α : Type} (l : List α) (n : ℕ) (d : α) (h : l.length ≤ n) :
    l.getD n d = d := by
  rw [List.getD_eq_getElem?_getD, List.getElem?_eq_none h]
  rfl

theorem hCapInv_set (L : ℕ) (a : List HNode) (k : ℕ) (v : HNode)
    (hinv : HCapInv L a) (hv : k < a.length → L ≤ v.capRef) :
    HCapInv L (a.set k v) := by
  intro j hj
  rw [List.length_set] at hj
  by_cases hk : k = j
  · subst hk
    rw [getD_set_self a k v default hj]
    exact hv hj
  · rw [getD_set_ne a k j v default hk]
    exact hinv j hj

theorem hInsertAfter_store (arena : List HNode) (store : Store) (self time : ℕ) :
    (HNode.insert_after arena store self time).2.2
      = store ++ [store.getD (arena.getD self default).capRef []] := rfl

theorem hInsertAfter_capInv (L : ℕ) (arena : List HNode) (store : Store) (self time : ℕ)
    (hinv : HCapInv L arena) (hL : L ≤ store.length) :
    HCapInv L (HNode.insert_after arena store self time).2.1 := by
  have hbase : ∀ (o : Option ℕ) (p : Option ℕ),
      HCapInv L (arena ++ [⟨time, store.length, o, p⟩]) := by
    intro o p j hj
    rw [List.length_append, List.length_cons, List.length_nil] at hj
    by_cases hja : j < arena.length
    · rw [getD_concat_lt arena _ default j hja]
      exact hinv j hja
    · have hje : j = arena.length := by omega
      subst hje
      rw [getD_concat_len]
      exact hL
  unfold HNode.insert_after
  dsimp only
  cases hnx : (arena.getD self default).next with
  | none =>
    dsimp only
    apply hCapInv_set
    · exact hbase none (some self)
    · intro hs
      exact hbase none (some self) self hs
  | some nx =>
    dsimp only
    apply hCapInv_set
    · apply hCapInv_set
      · exact hbase (some nx) (some self)
      · intro hs
        exact hbase (some nx) (some self) nx hs
    · intro hs
      exact (hCapInv_set L (arena ++ [(⟨time, store.length, some nx, some self⟩ : HNode)]) nx
        { (arena ++ [(⟨time, store.length, some nx, some self⟩ : HNode)]).getD nx default
            with prev := some arena.length }
        (hbase (some nx) (some self))
        (fun hs2 => hbase (some nx) (some self) nx hs2)) self hs

theorem hConsumeWalk_frame (arena : List HNode) (demand : List ℤ) (finishIdx L : ℕ)
    (hinv : HCapInv L arena) :
    ∀ (fuel t : ℕ) (store store' : Store),
      hConsumeWalk arena demand finishIdx fuel t store = .ok store' →
      store'.length = store.length ∧ ∀ k < L, store'.getD k [] = store.getD k [] := by
  intro fuel
  induction fuel with
  | zero =>
    intro t store store' h
    exact absurd h (by simp [hConsumeWalk])
  | succ fuel ih =>
    intro t store store' h
    by_cases ht : t = finishIdx
    · have he : store' = store := by
        unfold hConsumeWalk at h
        rw [if_pos ht] at h
        injection h with h
        exact h.symm
      subst he
      exact ⟨rfl, fun _ _ => rfl⟩
    · unfold hConsumeWalk at h
      rw [if_neg ht] at h
      dsimp only at h
      cases hnx : (arena.getD t default).next with
      | none =>
        rw [hnx] at h
        exact absurd h (by simp)
      | some nx =>
        rw [hnx] at h
        have htl : t < arena.length := by
          by_contra hge
          have hd : arena.getD t default = default :=
            getD_of_length_le arena t default (le_of_not_lt hge)
          have hnone : (default : HNode).next = none := rfl
          rw [hd, hnone] at hnx
          exact Option.noConfusion hnx
        have hcap : L ≤ (arena.getD t default).capRef := hinv t htl
        obtain ⟨h1, h2⟩ := ih nx _ store' h
        constructor
        · rw [h1, List.length_set]
        · intro k hk
          rw [h2 k hk, getD_set_ne _ _ _ _ _ (by omega)]

theorem hDecodeStep_eq (duration : List ℕ) (predecessors : List (List ℕ))
    (demands : List (List ℤ)) (st : HDecodeState) (i : ℕ)
    (s0 node fin : ℕ) (arena₁ : List HNode) (store₁ store₂ : Store)
    (h1 : hMaxPredStart st.arena st.finishNodes (predecessors.getD i []) 0 = .ok s0)
    (h2 : hWalkEnough st.arena st.store (demands.getD i []) (st.arena.length + 1) s0
      = .ok node)
    (h3 : (match (st.arena.getD node default).next with
        | none => HNode.insert_after st.arena st.store node
            ((st.arena.getD node default).time + duration.getD i 0)
        | some nx =>
          if (st.arena.getD nx default).time
              ≠ (st.arena.getD node default).time + duration.getD i 0
          then HNode.insert_after st.arena st.store node
            ((st.arena.getD node default).time + duration.getD i 0)
          else (nx, st.arena, st.store)) = (fin, arena₁, store₁))
    (h4 : hConsumeWalk arena₁ (demands.getD i []) fin (arena₁.length + 1) node store₁
      = .ok store₂) :
    hDecodeStep duration predecessors demands st i = .ok
      { arena := arena₁, store := store₂,
        starts := st.starts.set i (arena₁.getD node default).time,
        finishNodes := st.finishNodes.set i (some fin) } := by
  unfold hDecodeStep
  simp only [h1, exc_ok_bind, h2, h3, h4]

theorem hDecodeStep_inv (duration : List ℕ) (predecessors : List (List ℕ))
    (demands : List (List ℤ)) (st st' : HDecodeState) (i : ℕ)
    (h : hDecodeStep duration predecessors demands st i = .ok st') :
    ∃ s0 node fin arena₁ store₁ store₂,
      hMaxPredStart st.arena st.finishNodes (predecessors.getD i []) 0 = .ok s0 ∧
      hWalkEnough st.arena st.store (demands.getD i []) (st.arena.length + 1) s0
        = .ok node ∧
      ((match (st.arena.getD node default).next with
        | none => HNode.insert_after st.arena st.store node
            ((st.arena.getD node default).time + duration.getD i 0)
        | some nx =>
          if (st.arena.getD nx default).time
              ≠ (st.arena.getD node default).time + duration.getD i 0
          then HNode.insert_after st.arena st.store node
            ((st.arena.getD node default).time + duration.getD i 0)
          else (nx, st.arena, st.store)) = (fin, arena₁, store₁)) ∧
      hConsumeWalk arena₁ (demands.getD i []) fin (arena₁.length + 1) node store₁
        = .ok store₂ ∧
      st' = HDecodeState.mk arena₁ store₂
        (st.starts.set i (arena₁.getD node default).time)
        (st.finishNodes.set i (some fin)) := by
  cases hm : hMaxPredStart st.arena st.finishNodes (predecessors.getD i []) 0 with
  | error e =>
    unfold hDecodeStep at h
    rw [hm] at h
    exact absurd h (by simp [Bind.bind, Except.bind])
  | ok s0 =>
    cases hw : hWalkEnough st.arena st.store (demands.getD i []) (st.arena.length + 1) s0 with
    | error e =>
      unfold hDecodeStep at h
      rw [hm, exc_ok_bind, hw] at h
      exact absurd h (by simp [Bind.bind, Except.bind])
    | ok node =>
      rcases hq : (match (st.arena.getD node default).next with
        | none => HNode.insert_after st.arena st.store node
            ((st.arena.getD node default).time + duration.getD i 0)
        | some nx =>
          if (st.arena.getD nx default).time
              ≠ (st.arena.getD node default).time + duration.getD i 0
          then HNode.insert_after st.arena st.store node
            ((st.arena.getD node default).time + duration.getD i 0)
          else (nx, st.arena, st.store)) with ⟨fin, arena₁, store₁⟩
      cases hc : hConsumeWalk arena₁ (demands.getD i []) fin (arena₁.length + 1) node store₁ with
      | error e =>
        unfold hDecodeStep at h
        rw [hm, exc_ok_bind, hw, exc_ok_bind] at h
        dsimp only at h
        rw [hq] at h
        dsimp only at h
        rw [hc] at h
        exact absurd h (by simp [Bind.bind, Except.bind])
      | ok store₂ =>
        have heq := hDecodeStep_eq duration predecessors demands st i s0 node fin arena₁
          store₁ store₂ hm hw hq hc
        rw [heq] at h
        injection h with h
        exact ⟨s0, node, fin, arena₁, store₁, store₂, rfl, hw, hq, hc, h.symm⟩

theorem hDecodeStep_frame (duration : List ℕ) (predecessors : List (List ℕ))
    (demands : List (List ℤ)) (L : ℕ) (st st' : HDecodeState) (i : ℕ)
    (hinv : HCapInv L st.arena) (hL : L ≤ st.store.length)
    (h : hDecodeStep duration predecessors demands st i = .ok st') :
    HCapInv L st'.arena ∧ L ≤ st'.store.length ∧
    (∀ k < L, st'.store.getD k [] = st.store.getD k []) := by
  obtain ⟨s0, node, fin, arena₁, store₁, store₂, hm, hw, hq, hc, hst⟩ :=
    hDecodeStep_inv duration predecessors demands st st' i h
  have hbranch : HCapInv L arena₁ ∧ L ≤ store₁.length ∧
      (∀ k < L, store₁.getD k [] = st.store.getD k []) := by
    cases hnx : (st.arena.getD node default).next with
    | none =>
      rw [hnx] at hq
      dsimp only at hq
      have ha : arena₁ = (HNode.insert_after st.arena st.store node
          ((st.arena.getD node default).time + duration.getD i 0)).2.1 := by rw [hq]
      have hs : store₁ = (HNode.insert_after st.arena st.store node
          ((st.arena.getD node default).time + duration.getD i 0)).2.2 := by rw [hq]
      rw [ha, hs, hInsertAfter_store]
      refine ⟨hInsertAfter_capInv L st.arena st.store node _ hinv hL, ?_, ?_⟩
      · rw [List.length_append, List.length_cons, List.length_nil]
        omega
      · intro k hk
        exact getD_concat_lt st.store _ [] k (by omega)
    | some nx =>
      rw [hnx] at hq
      dsimp only at hq
      by_cases htime : (st.arena.getD nx default).time
          ≠ (st.arena.getD node default).time + duration.getD i 0
      · rw [if_pos htime] at hq
        have ha : arena₁ = (HNode.insert_after st.arena st.store node
            ((st.arena.getD node default).time + duration.getD i 0)).2.1 := by rw [hq]
        have hs : store₁ = (HNode.insert_after st.arena st.store node
            ((st.arena.getD node default).time + duration.getD i 0)).2.2 := by rw [hq]
        rw [ha, hs, hInsertAfter_store]
        refine ⟨hInsertAfter_capInv L st.arena st.store node _ hinv hL, ?_, ?_⟩
        · rw [List.length_append, List.length_cons, List.length_nil]
          omega
        · intro k hk
          exact getD_concat_lt st.store _ [] k (by omega)
      · rw [if_neg htime] at hq
        injection hq with hfin hrest
        injection hrest with ha hs
        rw [← ha, ← hs]
        exact ⟨hinv, hL, fun _ _ => rfl⟩
  obtain ⟨hainv, hsl, hsfr⟩ := hbranch
  obtain ⟨hclen, hcfr⟩ := hConsumeWalk_frame arena₁ (demands.getD i []) fin L hainv
    (arena₁.length + 1) node store₁ store₂ hc
  subst hst
  refine ⟨hainv, ?_, ?_⟩
  · dsimp only
    omega
  · intro k hk
    dsimp only
    rw [hcfr k hk, hsfr k hk]

theorem hFold_frame (duration : List ℕ) (predecessors : List (List ℕ))
    (demands : List (List ℤ)) (L : ℕ) :
    ∀ (alist : List ℕ) (st st' : HDecodeState),
      HCapInv L st.arena → L ≤ st.store.length →
      alist.foldlM (hDecodeStep duration predecessors demands) st = .ok st' →
      L ≤ st'.store.length ∧ ∀ k < L, st'.store.getD k [] = st.store.getD k [] := by
  intro alist
  induction alist with
  | nil =>
    intro st st' _ hL h
    rw [List.foldlM_nil] at h
    injection h with h
    subst h
    exact ⟨hL, fun _ _ => rfl⟩
  | cons i rest ih =>
    intro st st' hinv hL h
    rw [List.foldlM_cons] at h
    cases hstep : hDecodeStep duration predecessors demands st i with
    | error e =>
      rw [hstep] at h
      exact absurd h (by simp [Bind.bind, Except.bind])
    | ok st₁ =>
      rw [hstep, exc_ok_bind] at h
      obtain ⟨hinv₁, hL₁, hfr₁⟩ :=
        hDecodeStep_frame duration predecessors demands L st st₁ i hinv hL hstep
      obtain ⟨hL', hfr'⟩ := ih st₁ st' hinv₁ hL₁ h
      exact ⟨hL', fun k hk => (hfr' k hk).trans (hfr₁ k hk)⟩

/-- **C10**: `decode` never mutates any pre-existing object: in the heap model
(where every Python `list[int]` is a store entry and `decode`'s copies and
in-place `consume` updates are mirrored exactly), every store entry that
existed before the call — the caller's `capacity` list at `capRef₀` as well as
every other input object — is unchanged after any successful run, so the same
capacity and demand vectors can be reused across repeated decode calls. -/
theorem c10_decode_no_input_mutation (alist duration : List ℕ)
    (predecessors : List (List ℕ)) (demands : List (List ℤ))
    (store₀ : Store) (capRef₀ : ℕ) (st' : HDecodeState)
    (hrun : hDecodeRun alist duration predecessors demands store₀ capRef₀ = .ok st') :
    store₀.length ≤ st'.store.length ∧
    ∀ k < store₀.length, st'.store.getD k [] = store₀.getD k [] := by
  unfold hDecodeRun at hrun
  have hinv₀ : HCapInv store₀.length
      [(⟨0, store₀.length, none, none⟩ : HNode)] := by
    intro j hj
    rw [List.length_cons, List.length_nil] at hj
    have hj0 : j = 0 := by omega
    subst hj0
    exact le_refl _
  obtain ⟨h1, h2⟩ := hFold_frame duration predecessors demands store₀.length alist
    (HDecodeState.mk [⟨0, store₀.length, none, none⟩]
      (store₀ ++ [store₀.getD capRef₀ []])
      (List.replicate duration.length 0)
      ((List.replicate duration.length (none : Option ℕ)).set 0 (some 0)))
    st' hinv₀
    (by dsimp only; rw [List.length_append]; omega)
    hrun
  refine ⟨h1, fun k hk => ?_⟩
  rw [h2 k hk]
  exact getD_concat_lt store₀ _ [] k hk


/-- Witness for C10 at a concrete run: `store₀ = [[1]]` holds the caller's
capacity object at index 0; the final store still has `[1]` there. -/
theorem c10_witness :
    ([[1]] : Store).length ≤ (HDecodeState.mk
        [⟨0, 1, some 1, none⟩, ⟨0, 2, some 2, some 0⟩, ⟨5, 3, none, some 1⟩]
        [[1], [0], [0], [1]] [0, 0] [some 1, some 2]).store.length ∧
    ∀ k < ([[1]] : Store).length,
      (HDecodeState.mk
        [⟨0, 1, some 1, none⟩, ⟨0, 2, some 2, some 0⟩, ⟨5, 3, none, some 1⟩]
        [[1], [0], [0], [1]] [0, 0] [some 1, some 2]).store.getD k []
        = ([[1]] : Store).getD k [] :=
  c10_decode_no_input_mutation [0, 1] [0, 5] [[], [0]] [[1], [1]] [[1]] 0
    (HDecodeState.mk
      [⟨0, 1, some 1, none⟩, ⟨0, 2, some 2, some 0⟩, ⟨5, 3, none, some 1⟩]
      [[1], [0], [0], [1]] [0, 0] [some 1, some 2])
    (by rfl)
